import Mathlib

set_option maxRecDepth 8000
set_option maxHeartbeats 1600000

/-!
Verification development for the huforge-splitter-cli geometry pipeline.

Each section embeds one component of the TypeScript source as executable
Lean definitions over exact rationals (JS IEEE doubles are modelled by ℚ;
JS Infinity is modelled by the none case of an Option ℚ cost type), and
proves or refutes the specification claims about that component.
-/

namespace HueSlicer

/-- arr[i] with a default, structurally recursive so that concrete
instances evaluate by rewriting. -/
def nthD {α : Type} : List α → ℕ → α → α
  | [], _, d => d
  | a :: _, 0, _ => a
  | _ :: t, n + 1, d => nthD t n d

/-- arr[i] = b as a functional update, matching JS array assignment
on an in-bounds index (out of bounds leaves the list unchanged, a case
the embedded loops never hit). -/
def setNth {α : Type} : List α → ℕ → α → List α
  | [], _, _ => []
  | _ :: t, 0, b => b :: t
  | a :: t, n + 1, b => a :: setNth t n b

/-- n consecutive naturals counting up from s. -/
def countUp : ℕ → ℕ → List ℕ
  | 0, _ => []
  | n + 1, s => s :: countUp n (s + 1)

/-- Inclusive integer range s..e as a list: the values taken by a JS
for-loop counter running from s while it stays at most e. -/
def rangeIncl (s e : ℕ) : List ℕ := countUp (e + 1 - s) s

theorem countUp_mem {n s x : ℕ} (h : x ∈ countUp n s) : s ≤ x ∧ x < s + n := by
  induction n generalizing s with
  | zero => simp [countUp] at h
  | succ k ih =>
      simp only [countUp, List.mem_cons] at h
      rcases h with rfl | h
      · omega
      · have := ih h
        omega

theorem mem_countUp {n s x : ℕ} (h1 : s ≤ x) (h2 : x < s + n) : x ∈ countUp n s := by
  induction n generalizing s with
  | zero => omega
  | succ k ih =>
      simp only [countUp, List.mem_cons]
      rcases Nat.eq_or_lt_of_le h1 with rfl | hlt
      · exact Or.inl rfl
      · exact Or.inr (ih hlt (by omega))

theorem rangeIncl_mem {s e x : ℕ} (h : x ∈ rangeIncl s e) : s ≤ x ∧ x ≤ e := by
  have := countUp_mem h
  omega

theorem mem_rangeIncl {s e x : ℕ} (h1 : s ≤ x) (h2 : x ≤ e) : x ∈ rangeIncl s e := by
  exact mem_countUp h1 (by omega)

theorem countUp_length (n s : ℕ) : (countUp n s).length = n := by
  induction n generalizing s with
  | zero => rfl
  | succ k ih => simp [countUp, ih]

theorem countUp_nodup (n s : ℕ) : (countUp n s).Nodup := by
  induction n generalizing s with
  | zero => exact List.nodup_nil
  | succ k ih =>
      refine List.nodup_cons.mpr ⟨?_, ih (s + 1)⟩
      intro hmem
      have := countUp_mem hmem
      omega

/-- Generic foldl invariant preservation. -/
theorem foldl_inv {α β : Type} (P : β → Prop) (f : β → α → β) (l : List α) (b : β)
    (hb : P b) (hf : ∀ a ∈ l, ∀ s, P s → P (f s a)) : P (l.foldl f b) := by
  induction l generalizing b with
  | nil => simpa using hb
  | cons x xs ih =>
      simp only [List.foldl_cons]
      exact ih (f b x) (hf x (by simp) b hb)
        (fun a ha s hs => hf a (List.mem_cons_of_mem _ ha) s hs)

theorem nthD_setNth_self {α : Type} (l : List α) (i : ℕ) (a d : α) (h : i < l.length) :
    nthD (setNth l i a) i d = a := by
  induction l generalizing i with
  | nil => simp at h
  | cons x t ih =>
      cases i with
      | zero => simp [setNth, nthD]
      | succ k => simpa [setNth, nthD] using ih k (by simpa using h)

theorem nthD_setNth_ne {α : Type} (l : List α) (i j : ℕ) (a d : α) (h : i ≠ j) :
    nthD (setNth l i a) j d = nthD l j d := by
  induction l generalizing i j with
  | nil => simp [setNth]
  | cons x t ih =>
      cases i with
      | zero => cases j with
        | zero => exact absurd rfl h
        | succ k => simp [setNth, nthD]
      | succ k => cases j with
        | zero => simp [setNth, nthD]
        | succ k2 => simpa [setNth, nthD] using ih k k2 (by omega)

theorem length_setNth {α : Type} (l : List α) (i : ℕ) (a : α) :
    (setNth l i a).length = l.length := by
  induction l generalizing i with
  | nil => simp [setNth]
  | cons x t ih =>
      cases i with
      | zero => simp [setNth]
      | succ k => simpa [setNth] using ih k

theorem setNth_oob {α : Type} (l : List α) (i : ℕ) (a : α) (h : l.length ≤ i) :
    setNth l i a = l := by
  induction l generalizing i with
  | nil => simp [setNth]
  | cons x t ih =>
      cases i with
      | zero => simp at h
      | succ k => simpa [setNth] using ih k (by simpa using h)

theorem nthD_oob {α : Type} (l : List α) (i : ℕ) (d : α) (h : l.length ≤ i) :
    nthD l i d = d := by
  induction l generalizing i with
  | nil => simp [nthD]
  | cons x t ih =>
      cases i with
      | zero => simp at h
      | succ k => simpa [nthD] using ih k (by simpa using h)

end HueSlicer

/-! ## SeamFinder (src/unnamed/part_000, class SeamFinder)

The grid is a list of rows of rationals.  DP costs live in Option ℚ where
none models the JS Infinity produced by masked cells and by the
Infinity-filled initial dist table; cAdd and cLt mirror + and < on
IEEE doubles extended with Infinity. -/

namespace Seam

open HueSlicer

/-- Heightmap grid: a list of rows, as the number[][] of the source. -/
abbrev Grid := List (List ℚ)

/-- Optional boolean mask, true = allowed, as in SeamFinder.mask. -/
abbrev Mask := List (List Bool)

/-- DP cost: a rational, or (as none) the JS Infinity. -/
abbrev Cost := Option ℚ

/-- The Infinity cost. -/
def inf : Cost := none

/-- v === Infinity -/
def isInf : Cost → Bool
  | none => true
  | some _ => false

/-- Cost addition; Infinity absorbs. -/
def cAdd : Cost → Cost → Cost
  | some a, some b => some (a + b)
  | _, _ => none

/-- Cost strict order, as < on doubles with Infinity: a finite value is
below Infinity, Infinity is below nothing. -/
def cLt : Cost → Cost → Bool
  | some a, some b => decide (a < b)
  | some _, none => true
  | none, _ => false

/-- width = heightMap[0].length -/
def gW (g : Grid) : ℕ := (nthD g 0 []).length

/-- height = heightMap.length -/
def gH (g : Grid) : ℕ := List.length g

/-- this.data[y][x] -/
def cell (g : Grid) (y x : ℕ) : ℚ := nthD (nthD g y []) x 0

/-- calculateEnergyMap cell: masked cells get Infinity, otherwise
100 / (gradient + 1) with the right neighbor clamped at the last column. -/
def energy (g : Grid) (m : Option Mask) (y x : ℕ) : Cost :=
  match m with
  | some mk =>
      if nthD (nthD mk y []) x false = false then inf
      else some ((100 : ℚ) / (|cell g y x -
        (if x < gW g - 1 then cell g y (x + 1) else cell g y x)| + 1))
  | none =>
      some ((100 : ℚ) / (|cell g y x -
        (if x < gW g - 1 then cell g y (x + 1) else cell g y x)| + 1))

/-- One relaxation of neighbor column nxi from parent column x carrying
dist value dx, against the (dist row, parent row) state; mirrors the inner
`for (const nx of neighbors)` body of findVerticalSeam. -/
def relaxInto (E1 : ℕ → Cost) (s e W : ℕ) (dx : Cost) (x : ℕ)
    (st : List Cost × List ℕ) (nxi : ℤ) : List Cost × List ℕ :=
  if (s : ℤ) ≤ nxi ∧ nxi ≤ (e : ℤ) ∧ 0 ≤ nxi ∧ nxi < (W : ℤ) then
    if isInf (E1 nxi.toNat) then st
    else
      if cLt (cAdd dx (E1 nxi.toNat)) (nthD st.1 nxi.toNat inf) then
        (setNth st.1 nxi.toNat (cAdd dx (E1 nxi.toNat)), setNth st.2 nxi.toNat x)
      else st
  else st

/-- Relaxations from parent column x (skipped when dist[y][x] is Infinity);
mirrors the `if (dist[y][x] === Infinity) continue` loop body. -/
def relaxFrom (E1 : ℕ → Cost) (s e W : ℕ) (prev : List Cost) (st : List Cost × List ℕ)
    (x : ℕ) : List Cost × List ℕ :=
  if isInf (nthD prev x inf) then st
  else [(x : ℤ) - 1, (x : ℤ), (x : ℤ) + 1].foldl
    (relaxInto E1 s e W (nthD prev x inf) x) st

/-- One DP row step: given row y's dist values, produce row y+1's dist and
parent rows (dist initialised to Infinity, parent to 0, as the source arrays). -/
def stepRow (E1 : ℕ → Cost) (s e W : ℕ) (prev : List Cost) : List Cost × List ℕ :=
  (rangeIncl s e).foldl (relaxFrom E1 s e W prev)
    (List.replicate W inf, List.replicate W 0)

/-- First dist row: dist[0][x] = energyMap[0][x] for x in the ROI (and in
bounds), Infinity elsewhere. -/
def initRow (g : Grid) (m : Option Mask) (s e W : ℕ) : List Cost :=
  (rangeIncl s e).foldl
    (fun d x => if x < W then setNth d x (energy g m 0 x) else d)
    (List.replicate W inf)

/-- The (dist, parent) rows of the DP, built row by row. -/
def rows (g : Grid) (m : Option Mask) (s e : ℕ) : ℕ → List Cost × List ℕ
  | 0 => (initRow g m s e (gW g), List.replicate (gW g) 0)
  | y + 1 => stepRow (fun x => energy g m (y + 1) x) s e (gW g) (rows g m s e y).1

theorem rows_succ (g : Grid) (m : Option Mask) (s e y : ℕ) :
    rows g m s e (y + 1) =
      stepRow (fun x => energy g m (y + 1) x) s e (gW g) (rows g m s e y).1 := rfl

/-- dist[y][x] -/
def dv (g : Grid) (m : Option Mask) (s e y x : ℕ) : Cost :=
  nthD (rows g m s e y).1 x inf

/-- parent[y][x] -/
def pv (g : Grid) (m : Option Mask) (s e y x : ℕ) : ℕ :=
  nthD (rows g m s e y).2 x 0

/-- The argmin scan over the last row: running minimum cost and the first
column realising it; endX = -1 is modelled by none. -/
def bestEnd (g : Grid) (m : Option Mask) (s e : ℕ) : Cost × Option ℕ :=
  (rangeIncl s e).foldl
    (fun st x =>
      if cLt (dv g m s e (gH g - 1) x) st.1 then (dv g m s e (gH g - 1) x, some x) else st)
    (inf, Option.none)

/-- Backtracked column of row (gH g - 1 - k): k steps of parent-following
from the end column. -/
def colFromEnd (g : Grid) (m : Option Mask) (s e endX : ℕ) : ℕ → ℕ
  | 0 => endX
  | k + 1 => pv g m s e (gH g - 1 - k) (colFromEnd g m s e endX k)

/-- findVerticalSeam: the returned polyline as a list of (x, y) pairs.
When no finite-cost cell exists in the last row it falls back to the
vertical line at the mid column of the ROI. -/
def findVerticalSeam (g : Grid) (m : Option Mask) (s e : ℕ) : List (ℕ × ℕ) :=
  match (bestEnd g m s e).2 with
  | Option.none => (List.range (gH g)).map (fun y => ((s + e) / 2, y))
  | Option.some endX =>
      (List.range (gH g)).map (fun y => (colFromEnd g m s e endX (gH g - 1 - y), y))

/-- Sum of a list of costs (Infinity absorbing), for reconstructing a
path cost from its cell energies. -/
def listCSum (l : List Cost) : Cost := l.foldr cAdd (some 0)

/-- setMask state: the SeamFinder object's grid and optional mask. -/
structure SeamState where
  data : Grid
  mask : Option Mask
deriving DecidableEq

/-- setMask: a mask whose dimensions differ from the map is ignored with a
console warning; otherwise it is installed. -/
def setMask (mk : Mask) (st : SeamState) : SeamState :=
  if mk.length ≠ gH st.data ∨ (nthD mk 0 []).length ≠ gW st.data then st
  else { st with mask := some mk }

end Seam

/-! ## HeightMapper.fillGaps (src/unnamed/part_008, Float32Array variant)

The grid is flattened row-major, index y*w + x; the single fill pass runs
in place over interior cells in row-major order. -/

namespace HeightMap

open HueSlicer

/-- One cell visit of fillGaps: if the current value at (y,x) is 0, take
left, right, top, bottom from the grid as it stands now, sum and count
the strictly positive ones, and overwrite with their mean when any exist. -/
def fillStep (w : ℕ) (cur : List ℚ) (y x : ℕ) : List ℚ :=
  let idx := y * w + x
  if nthD cur idx 0 = 0 then
    let left := nthD cur (idx - 1) 0
    let right := nthD cur (idx + 1) 0
    let top := nthD cur ((y - 1) * w + x) 0
    let bottom := nthD cur ((y + 1) * w + x) 0
    let sc := [left, right, top, bottom].foldl
      (fun p v => if 0 < v then (p.1 + v, p.2 + 1) else p) ((0 : ℚ), (0 : ℕ))
    if 0 < sc.2 then setNth cur idx (sc.1 / (sc.2 : ℚ)) else cur
  else cur

/-- fillGaps: one in-place pass over the interior cells
y = 1 .. h-2, x = 1 .. w-2, in row-major order. -/
def fillGaps (g : List ℚ) (w h : ℕ) : List ℚ :=
  (rangeIncl 1 (h - 2)).foldl
    (fun cur y => (rangeIncl 1 (w - 2)).foldl (fun cur2 x => fillStep w cur2 y x) cur) g

/-- The claim's reading of the fill (for comparison with fillGaps): the
neighbor values are taken from the original pre-fill grid g0, never from a
cell filled earlier in the same pass. -/
def fillStepOrig (g0 : List ℚ) (w : ℕ) (cur : List ℚ) (y x : ℕ) : List ℚ :=
  let idx := y * w + x
  if nthD g0 idx 0 = 0 then
    let left := nthD g0 (idx - 1) 0
    let right := nthD g0 (idx + 1) 0
    let top := nthD g0 ((y - 1) * w + x) 0
    let bottom := nthD g0 ((y + 1) * w + x) 0
    let sc := [left, right, top, bottom].foldl
      (fun p v => if 0 < v then (p.1 + v, p.2 + 1) else p) ((0 : ℚ), (0 : ℕ))
    if 0 < sc.2 then setNth cur idx (sc.1 / (sc.2 : ℚ)) else cur
  else cur

/-- The fill pass as the claim reads it: averages always from the original
grid. -/
def fillGapsClaim (g : List ℚ) (w h : ℕ) : List ℚ :=
  (rangeIncl 1 (h - 2)).foldl
    (fun cur y => (rangeIncl 1 (w - 2)).foldl (fun cur2 x => fillStepOrig g w cur2 y x) cur) g

end HeightMap

/-! ## Geometry primitives and TriangleSplitter
(src/src/utils/GeometryUtils.ts and src/unnamed/part_009) -/

namespace Geom

open HueSlicer

structure P2 where
  x : ℚ
  y : ℚ
deriving DecidableEq, Repr

structure P3 where
  x : ℚ
  y : ℚ
  z : ℚ
deriving DecidableEq, Repr

abbrev Tri := P3 × P3 × P3

/-- GeometryUtils.pointSide, applied by the splitter to the XY footprint
of a 3D vertex. -/
def pointSide (p : P3) (a b : P2) : ℚ :=
  (b.x - a.x) * (p.y - a.y) - (b.y - a.y) * (p.x - a.x)

/-- Math.sign -/
def sign (q : ℚ) : ℤ :=
  if 0 < q then 1 else if q < 0 then -1 else 0

/-- GeometryUtils.interpolate3D -/
def interpolate3D (p1 p2 : P3) (t : ℚ) : P3 :=
  ⟨p1.x + (p2.x - p1.x) * t, p1.y + (p2.y - p1.y) * t, p1.z + (p2.z - p1.z) * t⟩

/-- GeometryUtils.subdivideTriangle: four congruent sub-triangles on the
edge midpoints. -/
def subdivideTriangle (t : Tri) : List Tri :=
  let m1 := interpolate3D t.1 t.2.1 (1 / 2)
  let m2 := interpolate3D t.2.1 t.2.2 (1 / 2)
  let m3 := interpolate3D t.2.2 t.1 (1 / 2)
  [(t.1, m1, m3), (m1, t.2.1, m2), (m1, m2, m3), (m3, m2, t.2.2)]

/-- TriangleSplitter.intersectEdgeInfiniteLine: signed line distances d1,
d2 of the edge ends; null when they differ by less than 1e-9, otherwise
the 3D interpolation at t = d1/(d1-d2). -/
def intersectEdgeInfiniteLine (p1 p2 : P3) (l1 l2 : P2) : Option P3 :=
  let A := l1.y - l2.y
  let B := l2.x - l1.x
  let C := -A * l1.x - B * l1.y
  let d1 := A * p1.x + B * p1.y + C
  let d2 := A * p2.x + B * p2.y + C
  if |d1 - d2| < 1 / 1000000000 then none
  else some (interpolate3D p1 p2 (d1 / (d1 - d2)))

/-- TriangleSplitter.triangulateConvex: fan for 3- and 4-gons, empty
otherwise. -/
def triangulateConvex (poly : List P3) : List Tri :=
  match poly with
  | [a, b, c] => [(a, b, c)]
  | [a, b, c, d] => [(a, b, c), (a, c, d)]
  | _ => []

/-- One edge visit of the splitter loop: push curr to the polygon of its
side (ON vertices go left), and on a strict sign alternation push the edge
intersection, when non-null, to both polygons and the intersection list. -/
def splitStep (lineStart lineEnd : P2)
    (st : List P3 × List P3 × List P3) (ed : P3 × ℤ × P3 × ℤ) :
    List P3 × List P3 × List P3 :=
  let curr := ed.1
  let currS := ed.2.1
  let next := ed.2.2.1
  let nextS := ed.2.2.2
  let st1 : List P3 × List P3 × List P3 :=
    if 0 ≤ currS then (st.1 ++ [curr], st.2.1, st.2.2)
    else (st.1, st.2.1 ++ [curr], st.2.2)
  if (0 < currS ∧ nextS < 0) ∨ (currS < 0 ∧ 0 < nextS) then
    match intersectEdgeInfiniteLine curr next lineStart lineEnd with
    | some p => (st1.1 ++ [p], st1.2.1 ++ [p], st1.2.2 ++ [p])
    | none => st1
  else st1

structure SplitRes where
  left : List Tri
  right : List Tri
  cutSegment : Option (P3 × P3)
deriving DecidableEq, Repr

/-- TriangleSplitter.splitTriangleByLine (part_009): vertex sign
classification, trivial all-left / all-right cases, then the 3-edge walk
and fan triangulation; the cut segment is reported when exactly two
intersections were found. -/
def splitTriangleByLine (t : Tri) (lineStart lineEnd : P2) : SplitRes :=
  let s0 := sign (pointSide t.1 lineStart lineEnd)
  let s1 := sign (pointSide t.2.1 lineStart lineEnd)
  let s2 := sign (pointSide t.2.2 lineStart lineEnd)
  if 0 ≤ s0 ∧ 0 ≤ s1 ∧ 0 ≤ s2 then ⟨[t], [], none⟩
  else if s0 ≤ 0 ∧ s1 ≤ 0 ∧ s2 ≤ 0 then ⟨[], [t], none⟩
  else
    let res := [(t.1, s0, t.2.1, s1), (t.2.1, s1, t.2.2, s2), (t.2.2, s2, t.1, s0)].foldl
      (splitStep lineStart lineEnd) ([], [], [])
    ⟨triangulateConvex res.1, triangulateConvex res.2.1,
      match res.2.2 with
      | [p, q] => some (p, q)
      | _ => none⟩

/-- Twice the signed area of the XY projection of a triangle. -/
def area2 (t : Tri) : ℚ :=
  (t.2.1.x - t.1.x) * (t.2.2.y - t.1.y) - (t.2.1.y - t.1.y) * (t.2.2.x - t.1.x)

/-- Total twice-signed XY area of a triangle list. -/
def area2Sum (ts : List Tri) : ℚ := (ts.map area2).sum

end Geom

/-! ## StreamingSlicer routing (src/src/core/StreamingSlicer.ts)

Emissions are modelled as (row, col, triangle) writes; the cut-segment
side channel collected during the main pass does not influence any write
and is not modelled here (generateCaps runs with collectCaps = false). -/

namespace Slicer

open HueSlicer Geom

abbrev CutPath := List P2

inductive Axis where
  | x
  | y
deriving DecidableEq, Repr

def coord2 (a : Axis) (p : P2) : ℚ :=
  match a with
  | Axis.x => p.x
  | Axis.y => p.y

def coord3 (a : Axis) (p : P3) : ℚ :=
  match a with
  | Axis.x => p.x
  | Axis.y => p.y

/-- Math.min over a coordinate of a path (paths are nonempty in every use). -/
def minCoord (a : Axis) (p : CutPath) : ℚ :=
  match p.map (coord2 a) with
  | [] => 0
  | v :: rest => rest.foldl min v

/-- Math.max over a coordinate of a path. -/
def maxCoord (a : Axis) (p : CutPath) : ℚ :=
  match p.map (coord2 a) with
  | [] => 0
  | v :: rest => rest.foldl max v

def min3 (a b c : ℚ) : ℚ := min (min a b) c

def max3 (a b c : ℚ) : ℚ := max (max a b) c

def other : Axis → Axis
  | Axis.x => Axis.y
  | Axis.y => Axis.x

/-- The closest-point scan of the getBestFitLine fallback: running
(minDst, index) with a strict improvement test, starting from Infinity. -/
def closestIdx (path : CutPath) (sec : Axis) (center : ℚ) : ℕ :=
  ((countUp path.length 0).foldl
    (fun st i =>
      match st with
      | Option.none => some (|coord2 sec (nthD path i ⟨0, 0⟩) - center|, i)
      | Option.some md =>
          if |coord2 sec (nthD path i ⟨0, 0⟩) - center| < md.1 then
            some (|coord2 sec (nthD path i ⟨0, 0⟩) - center|, i)
          else st)
    (Option.none : Option (ℚ × ℕ))).elim 0 Prod.snd

/-- StreamingSlicer.getBestFitLine: filter the path points whose secondary
coordinate falls in the triangle's secondary range (1 mm margin); with
fewer than two, fall back to the local segment around the point closest to
the triangle center; otherwise least-squares regression extended 10 units
past the range. -/
def getBestFitLine (t : Tri) (path : CutPath) (axis : Axis) : P2 × P2 :=
  let sec := other axis
  let minVal := min3 (coord3 sec t.1) (coord3 sec t.2.1) (coord3 sec t.2.2)
  let maxVal := max3 (coord3 sec t.1) (coord3 sec t.2.1) (coord3 sec t.2.2)
  let relevant := path.filter (fun p => minVal - 1 ≤ coord2 sec p ∧ coord2 sec p ≤ maxVal + 1)
  if relevant.length < 2 then
    if 2 ≤ path.length then
      let center := (minVal + maxVal) / 2
      let ci := closestIdx path sec center
      let idx1 := ci - 1
      let idx2 := min (path.length - 1) (idx1 + 1)
      if idx1 = idx2 then (nthD path 0 ⟨0, 0⟩, nthD path (path.length - 1) ⟨0, 0⟩)
      else (nthD path idx1 ⟨0, 0⟩, nthD path idx2 ⟨0, 0⟩)
    else (⟨0, 0⟩, ⟨100, 100⟩)
  else
    let n : ℚ := relevant.length
    let sums := relevant.foldl
      (fun s p => (s.1 + p.x, s.2.1 + p.y, s.2.2.1 + p.x * p.y,
        s.2.2.2.1 + p.x * p.x, s.2.2.2.2 + p.y * p.y))
      ((0 : ℚ), (0 : ℚ), (0 : ℚ), (0 : ℚ), (0 : ℚ))
    let sumX := sums.1
    let sumY := sums.2.1
    let sumXY := sums.2.2.1
    let sumX2 := sums.2.2.2.1
    let sumY2 := sums.2.2.2.2
    match axis with
    | Axis.x =>
        let denom := n * sumY2 - sumY * sumY
        if |denom| < 1 / 1000000000 then
          (nthD relevant 0 ⟨0, 0⟩, nthD relevant (relevant.length - 1) ⟨0, 0⟩)
        else
          let A := (n * sumXY - sumX * sumY) / denom
          let B := (sumX * sumY2 - sumY * sumXY) / denom
          (⟨A * (minVal - 10) + B, minVal - 10⟩, ⟨A * (maxVal + 10) + B, maxVal + 10⟩)
    | Axis.y =>
        let denom := n * sumX2 - sumX * sumX
        if |denom| < 1 / 1000000000 then
          (nthD relevant 0 ⟨0, 0⟩, nthD relevant (relevant.length - 1) ⟨0, 0⟩)
        else
          let A := (n * sumXY - sumX * sumY) / denom
          let B := (sumY * sumX2 - sumX * sumXY) / denom
          (⟨minVal - 10, A * (minVal - 10) + B⟩, ⟨maxVal + 10, A * (maxVal + 10) + B⟩)

/-- A write of one triangle record to a tile stream: (row, col, triangle). -/
abbrev Write := ℕ × ℕ × Tri

/-- StreamingSlicer.processHorizontalSlices as the list of writes it
produces (right fragments stay in the current row, left fragments recurse
to the rows below). -/
def processHorizontalSlices (t : Tri) (hPaths : List CutPath) (pathIdx colIdx : ℕ) :
    List Write :=
  if _h : hPaths.length ≤ pathIdx then [(pathIdx, colIdx, t)]
  else
    let path := nthD hPaths pathIdx []
    let bmin := minCoord Axis.y path
    let bmax := maxCoord Axis.y path
    let minY := min3 t.1.y t.2.1.y t.2.2.y
    let maxY := max3 t.1.y t.2.1.y t.2.2.y
    if maxY < bmin - 1 / 10 then [(pathIdx, colIdx, t)]
    else if bmax + 1 / 10 < minY then processHorizontalSlices t hPaths (pathIdx + 1) colIdx
    else
      let l := getBestFitLine t path Axis.y
      let sr := splitTriangleByLine t l.1 l.2
      sr.right.map (fun tri => (pathIdx, colIdx, tri)) ++
        sr.left.flatMap (fun tri => processHorizontalSlices tri hPaths (pathIdx + 1) colIdx)
termination_by hPaths.length - pathIdx
decreasing_by
  all_goals omega

/-- StreamingSlicer.processVerticalSlices as the list of writes it
produces (left fragments go to the current column's horizontal slicing,
right fragments recurse to the columns to the right). -/
def processVerticalSlices (t : Tri) (vPaths : List CutPath) (pathIdx : ℕ)
    (hPaths : List CutPath) : List Write :=
  if _h : vPaths.length ≤ pathIdx then processHorizontalSlices t hPaths 0 pathIdx
  else
    let path := nthD vPaths pathIdx []
    let bmin := minCoord Axis.x path
    let bmax := maxCoord Axis.x path
    let minX := min3 t.1.x t.2.1.x t.2.2.x
    let maxX := max3 t.1.x t.2.1.x t.2.2.x
    if maxX < bmin - 1 / 10 then processHorizontalSlices t hPaths 0 pathIdx
    else if bmax + 1 / 10 < minX then processVerticalSlices t vPaths (pathIdx + 1) hPaths
    else
      let l := getBestFitLine t path Axis.x
      let sr := splitTriangleByLine t l.1 l.2
      sr.left.flatMap (fun tri => processHorizontalSlices tri hPaths 0 pathIdx) ++
        sr.right.flatMap (fun tri => processVerticalSlices tri vPaths (pathIdx + 1) hPaths)
termination_by vPaths.length - pathIdx
decreasing_by
  all_goals omega

/-- tri with the second and third vertices swapped: the reversed winding
used for the far-side copy of a cap triangle. -/
def revTri (t : Tri) : Tri := (t.1, t.2.2, t.2.1)

/-- generateCaps, vertical-cut branch: each wall triangle is pushed through
horizontal slicing once for the tile column on the low side of the cut and
once, with reversed winding, for the column on the high side. -/
def capVertWrites (walls : List Tri) (pathIdx : ℕ) (hPaths : List CutPath) : List Write :=
  walls.flatMap (fun tri =>
    processHorizontalSlices tri hPaths 0 pathIdx ++
      processHorizontalSlices (revTri tri) hPaths 0 (pathIdx + 1))

/-- generateCaps, horizontal-cut branch: each wall triangle and its
reversed copy are both pushed through the full vertical-then-horizontal
pipeline starting at column path 0. -/
def capHorizWrites (walls : List Tri) (vPaths hPaths : List CutPath) : List Write :=
  walls.flatMap (fun tri =>
    processVerticalSlices tri vPaths 0 hPaths ++
      processVerticalSlices (revTri tri) vPaths 0 hPaths)

end Slicer

/-! ## Binary container encode/decode
(src/src/core/GeometryProcessor.ts, saveStl and loadStl)

A container is modelled as its 32-bit triangle count plus the vertex
triples of its 50-byte records (saveStl writes a zero normal and zero
attribute; loadStl ignores both).  The vertex coordinates in play are
float32 values, whose byte round-trip through writeFloatLE/readFloatLE is
exact, so records carry the coordinates themselves. -/

namespace Stl

open HueSlicer Geom

/-- toFixed(3) key of one coordinate: the integer of thousandths nearest
to q.  (JS toFixed rounds ties away from zero while round rounds them up;
no value used below sits on a tie.) -/
def key1 (q : ℚ) : ℤ := round (q * 1000)

/-- The loadStl vertex-map key of a vertex. -/
def keyV (v : P3) : ℤ × ℤ × ℤ := (key1 v.x, key1 v.y, key1 v.z)

/-- saveStl: fails (RangeError on the 32-bit count write) when the
triangle count does not fit in 32 bits, otherwise the container. -/
def saveStl (ts : List Tri) : Option (ℕ × List Tri) :=
  if ts.length < 2 ^ 32 then some (ts.length, ts) else none

/-- Map lookup by rounded key, as Map.get on insertion-ordered entries. -/
def findKey (mp : List ((ℤ × ℤ × ℤ) × P3)) (k : ℤ × ℤ × ℤ) : Option P3 :=
  (mp.find? (fun ent => ent.1 = k)).map (fun ent => ent.2)

/-- One vertex of the loadStl loop: reuse the first stored vertex with the
same rounded key, else record this one. -/
def canonV (mp : List ((ℤ × ℤ × ℤ) × P3)) (v : P3) :
    List ((ℤ × ℤ × ℤ) × P3) × P3 :=
  match findKey mp (keyV v) with
  | some w => (mp, w)
  | none => (mp ++ [(keyV v, v)], v)

/-- The loadStl triangle loop over the records, threading the vertex map. -/
def loadVerts : List Tri → List ((ℤ × ℤ × ℤ) × P3) → List Tri
  | [], _ => []
  | t :: rest, mp =>
      let r1 := canonV mp t.1
      let r2 := canonV r1.1 t.2.1
      let r3 := canonV r2.1 t.2.2
      (r1.2, r2.2, r3.2) :: loadVerts rest r3.1

/-- loadStl on a container: read count records and rebuild the triangles
through the deduplicating vertex map. -/
def loadStl (c : ℕ × List Tri) : List Tri := loadVerts (c.2.take c.1) []

/-- Encode then decode. -/
def roundTrip (ts : List Tri) : Option (List Tri) := (saveStl ts).map loadStl

/-- All vertices of a triangle list, in traversal order. -/
def verts (ts : List Tri) : List P3 := ts.flatMap (fun t => [t.1, t.2.1, t.2.2])

end Stl

/-! ## TopologyTracer (src/src/core/watershed/TopologyTracer.ts)

Macro edges carry a point list and the two region labels flanking them
(-1 for the outside).  The source's simplify computes point-to-segment
distances through Math.sqrt and compares them with each other and with
epsilon 2.0; the model compares squared distances with 4, which orders
identically. -/

namespace Trace

open HueSlicer Geom

structure MEdge where
  points : List P2
  left : ℤ
  right : ℤ
deriving DecidableEq, Repr

/-- Squared distToSegment with the clamped projection parameter. -/
def dSq (p v w : P2) : ℚ :=
  let l2 := (w.x - v.x) ^ 2 + (w.y - v.y) ^ 2
  if l2 = 0 then (p.x - v.x) ^ 2 + (p.y - v.y) ^ 2
  else
    let t := ((p.x - v.x) * (w.x - v.x) + (p.y - v.y) * (w.y - v.y)) / l2
    let tc := max 0 (min 1 t)
    (p.x - (v.x + tc * (w.x - v.x))) ^ 2 + (p.y - (v.y + tc * (w.y - v.y))) ^ 2

/-- The farthest-interior-point scan of simplify: (maxDist², index),
starting from (0, 0), strict improvement, i = 1 .. points.length - 2. -/
def bestFar (points : List P2) : ℚ × ℕ :=
  (rangeIncl 1 (points.length - 2)).foldl
    (fun st i =>
      let d := dSq (nthD points i ⟨0, 0⟩) (nthD points 0 ⟨0, 0⟩)
        (nthD points (points.length - 1) ⟨0, 0⟩)
      if st.1 < d then (d, i) else st)
    ((0 : ℚ), 0)

/-- Index bounds for the farthest-point scan, needed by the termination
argument of rdp. -/
theorem bestFar_pos {points : List P2} (h : 0 < (bestFar points).1) :
    1 ≤ (bestFar points).2 ∧ (bestFar points).2 ≤ points.length - 2 := by
  unfold bestFar
  refine foldl_inv
    (fun st : ℚ × ℕ => 0 < st.1 → 1 ≤ st.2 ∧ st.2 ≤ points.length - 2) _ _ _ ?_ ?_ h
  · intro hc
    norm_num at hc
  · intro a ha st hst
    rcases rangeIncl_mem ha with ⟨ha1, ha2⟩
    dsimp only
    split
    · exact fun _ => ⟨ha1, ha2⟩
    · exact hst

/-- Ramer-Douglas-Peucker on squared distances with the tracer's epsilon
2.0 (squared: 4), as TopologyTracer.simplify is always called. -/
def rdp (points : List P2) : List P2 :=
  if h2 : points.length ≤ 2 then points
  else
    if hgt : (4 : ℚ) < (bestFar points).1 then
      let r1 := rdp (points.take ((bestFar points).2 + 1))
      let r2 := rdp (points.drop (bestFar points).2)
      r1.dropLast ++ r2
    else [nthD points 0 ⟨0, 0⟩, nthD points (points.length - 1) ⟨0, 0⟩]
termination_by points.length
decreasing_by
  · have hb := bestFar_pos (lt_trans (by norm_num) hgt)
    simp only [List.length_take]
    omega
  · have hb := bestFar_pos (lt_trans (by norm_num) hgt)
    simp only [List.length_drop]
    omega

/-- simplifyMacroEdges: each macro edge's point list is simplified once,
in place. -/
def simplifyEdges (edges : List MEdge) : List MEdge :=
  edges.map (fun ed => { ed with points := rdp ed.points })

/-- One entry of the per-label fragment lists built by
reconstructPolygons: the shared point list plus the reversal flag. -/
structure Frag where
  points : List P2
  reversed : Bool
deriving DecidableEq, Repr

/-- The fragment list collected for one label: for each edge, its points
as-is when the label lies on the left, reversed when on the right;
negative (outside) labels collect nothing. -/
def fragsFor (edges : List MEdge) (lbl : ℤ) : List Frag :=
  edges.flatMap (fun ed =>
    (if ed.left = lbl ∧ 0 ≤ lbl then [Frag.mk ed.points false] else []) ++
      (if ed.right = lbl ∧ 0 ≤ lbl then [Frag.mk ed.points true] else []))

/-- The concrete point order a fragment contributes to the stitched loop. -/
def oriented (f : Frag) : List P2 := if f.reversed then f.points.reverse else f.points

/-- startPt-to-endPt match test of the stitcher (tolerance 0.001 on both
coordinates). -/
def stitchMatch (endPt startPt : P2) : Bool :=
  decide (|startPt.x - endPt.x| < 1 / 1000 ∧ |startPt.y - endPt.y| < 1 / 1000)

/-- Find the first remaining fragment whose oriented start matches the
loop end (Set iteration order is insertion order). -/
def findNext (frags : List Frag) (remaining : List ℕ) (endPt : P2) : Option ℕ :=
  remaining.find? (fun idx => stitchMatch endPt (nthD (oriented (nthD frags idx ⟨[], false⟩)) 0 ⟨0, 0⟩))

/-- The stitch loop of reconstructPolygons: repeatedly append the matching
fragment minus its duplicated first point; stop when none matches. -/
def stitchAux (frags : List Frag) (remaining : List ℕ) (cur : List P2) : List P2 :=
  if hr : remaining = [] then cur
  else
    match hf : findNext frags remaining (nthD cur (cur.length - 1) ⟨0, 0⟩) with
    | Option.none => cur
    | Option.some idx =>
        stitchAux frags (remaining.erase idx)
          (cur ++ (oriented (nthD frags idx ⟨[], false⟩)).drop 1)
termination_by remaining.length
decreasing_by
  have hmem : idx ∈ remaining := List.mem_of_find?_eq_some hf
  have := List.length_erase_of_mem hmem
  have hpos : 0 < remaining.length := List.length_pos.mpr hr
  omega

/-- The polygon reconstructPolygons stitches for one label from its
fragment list (empty when the label has no fragments). -/
def polyFor (frags : List Frag) : List P2 :=
  match frags with
  | [] => []
  | f0 :: _ => stitchAux frags (countUp (frags.length - 1) 1) (oriented f0)

/-- TopologyTracer.getLabel: the region label at a pixel, -1 outside the
grid. -/
def getLabel (labels : List ℤ) (w h : ℕ) (x y : ℤ) : ℤ :=
  if x < 0 ∨ y < 0 ∨ (w : ℤ) ≤ x ∨ (h : ℤ) ≤ y then -1
  else nthD labels (y.toNat * w + x.toNat) 0

/-- One directed entry of the point graph: the far point id and the
region labels on the left and right of the directed segment. -/
structure Adj where
  next : ℕ
  left : ℤ
  right : ℤ
deriving DecidableEq, Repr

/-- The point graph as its insertion-ordered (pointId, adjacency list)
entries, matching the JS Map. -/
abbrev Graph := List (ℕ × List Adj)

/-- Map.get on the point graph. -/
def gFind (g : Graph) (p : ℕ) : Option (List Adj) :=
  (g.find? (fun e => e.1 = p)).map (fun e => e.2)

/-- The if-absent-insert-empty step of addEdge. -/
def ensureKey (g : Graph) (p : ℕ) : Graph :=
  if (g.find? (fun e => e.1 = p)).isSome then g else g ++ [(p, [])]

/-- Push one adjacency record onto a point's list. -/
def pushAdj (g : Graph) (p : ℕ) (a : Adj) : Graph :=
  g.map (fun e => if e.1 = p then (e.1, e.2 ++ [a]) else e)

/-- buildGraph's addEdge: ensure both endpoints exist, then store the
directed record on each side with left/right swapped on the reverse
direction. -/
def addEdge (g : Graph) (p1 p2 : ℕ) (l r : ℤ) : Graph :=
  pushAdj (pushAdj (ensureKey (ensureKey g p1) p2) p1 ⟨p2, l, r⟩) p2 ⟨p1, r, l⟩

/-- JS Set.add: insertion-ordered, duplicates ignored. -/
def sAdd (s : List ℕ) (p : ℕ) : List ℕ := if p ∈ s then s else s ++ [p]

/-- TopologyTracer.buildGraph: the image corners seed the potential-node
set, then the vertical and horizontal segment scans add one segment per
label change, collecting segment endpoints as potential nodes.  Point ids
are y * (width + 1) + x.  (The horizontal scan passes the labels to
addEdge as (l2, l1), as the code does.) -/
def buildGraph (labels : List ℤ) (w h : ℕ) : Graph × List ℕ :=
  let w1 := w + 1
  let init : Graph × List ℕ :=
    ([], sAdd (sAdd (sAdd (sAdd [] 0) w) (h * w1)) (h * w1 + w))
  let afterV := (countUp h 0).foldl
    (fun st (y : ℕ) => (countUp (w + 1) 0).foldl
      (fun st2 (x : ℕ) =>
        let l1 := getLabel labels w h ((x : ℤ) - 1) (y : ℤ)
        let l2 := getLabel labels w h (x : ℤ) (y : ℤ)
        if l1 ≠ l2 then
          (addEdge st2.1 (y * w1 + x) ((y + 1) * w1 + x) l1 l2,
            sAdd (sAdd st2.2 (y * w1 + x)) ((y + 1) * w1 + x))
        else st2)
      st) init
  (countUp (h + 1) 0).foldl
    (fun st (y : ℕ) => (countUp w 0).foldl
      (fun st2 (x : ℕ) =>
        let l1 := getLabel labels w h (x : ℤ) ((y : ℤ) - 1)
        let l2 := getLabel labels w h (x : ℤ) (y : ℤ)
        if l1 ≠ l2 then
          (addEdge st2.1 (y * w1 + x) (y * w1 + (x + 1)) l2 l1,
            sAdd (sAdd st2.2 (y * w1 + x)) (y * w1 + (x + 1)))
        else st2)
      st) afterV

/-- The node filter of buildGraph: a potential node is a node when it is
missing from the graph or its degree is not 2.  Junction-free boundary
loops therefore contribute no node at all. -/
def nodesOf (graph : Graph) (pot : List ℕ) : List ℕ :=
  pot.filter (fun p =>
    match gFind graph p with
    | Option.none => true
    | Option.some adjs => adjs.length ≠ 2)

/-- The order-normalised visited-segment key. -/
def segKey (a b : ℕ) : ℕ × ℕ := if a < b then (a, b) else (b, a)

/-- Set.add on visited-segment keys. -/
def sAddSeg (s : List (ℕ × ℕ)) (k : ℕ × ℕ) : List (ℕ × ℕ) :=
  if k ∈ s then s else s ++ [k]

/-- Sum of the adjacency-list lengths: the number of directed segment
records, an upper bound on the steps of any macro-edge walk. -/
def graphSize (g : Graph) : ℕ := (g.map (fun e => e.2.length)).sum

/-- The while loop of traceMacroEdges: walk through degree-2 points until
the next node, pushing points and marking segments visited.  The fuel is
passed as graphSize + 1, more than the walk can ever consume; on a point
with no onward step the source pushes the point twice (the in-loop push
and the final push). -/
def walk (graph : Graph) (nodes : List ℕ) :
    ℕ → ℕ → ℕ → List ℕ → List (ℕ × ℕ) → List ℕ × List (ℕ × ℕ)
  | 0, _, curr, path, visited => (path ++ [curr], visited)
  | fuel + 1, prev, curr, path, visited =>
      if curr ∈ nodes then (path ++ [curr], visited)
      else
        match ((gFind graph curr).getD []).find? (fun n => n.next ≠ prev) with
        | Option.none => (path ++ [curr] ++ [curr], visited)
        | Option.some nxt =>
            walk graph nodes fuel curr nxt.next (path ++ [curr])
              (sAddSeg visited (segKey curr nxt.next))

/-- TopologyTracer.traceMacroEdges: start one walk from every node along
every unvisited incident segment; with no nodes, no macro edge is ever
emitted.  Point ids are converted back to coordinates at the end. -/
def traceMacroEdges (graph : Graph) (nodes : List ℕ) (w : ℕ) : List MEdge :=
  let w1 := w + 1
  (nodes.foldl
    (fun st startNode =>
      match gFind graph startNode with
      | Option.none => st
      | Option.some neighbors =>
          neighbors.foldl
            (fun st2 nb =>
              if segKey startNode nb.next ∈ st2.2 then st2
              else
                let res := walk graph nodes (graphSize graph + 1) startNode nb.next
                  [startNode] (sAddSeg st2.2 (segKey startNode nb.next))
                (st2.1 ++ [⟨res.1.map (fun idx =>
                    ⟨((idx % w1 : ℕ) : ℚ), ((idx / w1 : ℕ) : ℚ)⟩),
                  nb.left, nb.right⟩], res.2))
            st)
    (([] : List MEdge), ([] : List (ℕ × ℕ)))).1

end Trace

/-! ## WatershedSegmenter (src/src/core/watershed/WatershedSegmenter.ts)

The label grid is a flat row-major List ℤ.  The PriorityQueue class the
segmenter imports is not part of the sources. -/

namespace Wshed

open HueSlicer

/-- Modelled from the spec: the PriorityQueue imported by
WatershedSegmenter is missing from the sources; §4.4 specifies a
min-priority queue keyed by the gradient value with FIFO order within a
priority.  It is modelled as the insertion-ordered list of
(value, priority) pairs. -/
abbrev PQ := List (ℕ × ℚ)

/-- Modelled from the spec: enqueue appends. -/
def pqEnqueue (q : PQ) (v : ℕ) (p : ℚ) : PQ := q ++ [(v, p)]

/-- Modelled from the spec: dequeue removes the first entry holding the
minimal priority and returns it with the remaining queue. -/
def pickMin : PQ → Option ((ℕ × ℚ) × PQ)
  | [] => none
  | ent :: rest =>
      match pickMin rest with
      | none => some (ent, [])
      | some pr => if ent.2 ≤ pr.1.2 then some (ent, rest) else some (pr.1, ent :: pr.2)

/-- computeGradient at one cell: the largest absolute height difference to
an in-bounds 4-neighbor. -/
def gradAt (hm : List ℚ) (w h y x : ℕ) : ℚ :=
  [((x : ℤ) - 1, (y : ℤ)), ((x : ℤ) + 1, (y : ℤ)), ((x : ℤ), (y : ℤ) - 1), ((x : ℤ), (y : ℤ) + 1)].foldl
    (fun maxDiff n =>
      if 0 ≤ n.1 ∧ n.1 < (w : ℤ) ∧ 0 ≤ n.2 ∧ n.2 < (h : ℤ) then
        let diff := |nthD hm (y * w + x) 0 - nthD hm (n.2.toNat * w + n.1.toNat) 0|
        if maxDiff < diff then diff else maxDiff
      else maxDiff)
    0

/-- computeGradient over the whole grid, row-major. -/
def computeGradient (hm : List ℚ) (w h : ℕ) : List ℚ :=
  (countUp h 0).flatMap (fun y => (countUp w 0).map (fun x => gradAt hm w h y x))

/-- applyBarriers: add the penalty to the gradient at every masked cell
(in place over the row-major cells). -/
def applyBarriers (gm : List ℚ) (w h : ℕ) (mask : List (List Bool)) (penalty : ℚ) : List ℚ :=
  (countUp h 0).foldl
    (fun cur y => (countUp w 0).foldl
      (fun cur2 x =>
        if nthD (nthD mask y []) x false = true then
          setNth cur2 (y * w + x) (nthD cur2 (y * w + x) 0 + penalty)
        else cur2)
      cur) gm

/-- The neighbor offsets of the flood loop: left, right, up, down. -/
def offs (w : ℕ) : List ℤ := [-1, 1, -(w : ℤ), (w : ℤ)]

/-- The neighbor (nx, ny) recomputed by the flood loop from the current
index: the else-if chain of the source compares the offset against -1, 1,
-width and width in that order, so when width = 1 the up and down offsets
are treated as left and right. -/
def nbrXY (w i : ℕ) (offset : ℤ) : ℤ × ℤ :=
  let cx : ℤ := (i % w : ℕ)
  let cy : ℤ := (i / w : ℕ)
  if offset = -1 then (cx - 1, cy)
  else if offset = 1 then (cx + 1, cy)
  else if offset = -(w : ℤ) then (cx, cy - 1)
  else if offset = (w : ℤ) then (cx, cy + 1)
  else (cx, cy)

/-- The in-grid flat index the flood loop derives for one offset, none
when the recomputed coordinates fall outside the grid. -/
def nbrCell (w h i : ℕ) (offset : ℤ) : Option ℕ :=
  let n2 := nbrXY w i offset
  if n2.1 < 0 ∨ (w : ℤ) ≤ n2.1 ∨ n2.2 < 0 ∨ (h : ℤ) ≤ n2.2 then none
  else some (n2.2.toNat * w + n2.1.toNat)

/-- One neighbor visit of the flood loop: skip out-of-bounds neighbors,
claim unlabeled cells with the current label and enqueue them at their
gradient cost. -/
def nbrStep (gm : List ℚ) (w : ℕ) (h : ℕ) (currIdx : ℕ) (currLabel : ℤ)
    (st : List ℤ × PQ) (offset : ℤ) : List ℤ × PQ :=
  match nbrCell w h currIdx offset with
  | Option.none => st
  | Option.some nIdx =>
      if nthD st.1 nIdx 0 = 0 then
        (setNth st.1 nIdx currLabel, pqEnqueue st.2 nIdx (nthD gm nIdx 0))
      else st

/-- The flood loop with explicit fuel (the source's while loop; the fuel
chosen by segment is provably enough to drain the queue). -/
def floodFuel (gm : List ℚ) (w h : ℕ) : ℕ → List ℤ → PQ → List ℤ
  | 0, labels, _ => labels
  | fuel + 1, labels, pq =>
      match pickMin pq with
      | Option.none => labels
      | Option.some ((currIdx, _), pq1) =>
          let currLabel := nthD labels currIdx 0
          let st := (offs w).foldl (nbrStep gm w h currIdx currLabel) (labels, pq1)
          floodFuel gm w h fuel st.1 st.2

/-- Seed initialisation: set each seed's label and enqueue it at
priority 0 when its flat index is in range. -/
def seedInit (w : ℕ) (seeds : List (ℕ × ℕ × ℤ)) (labels : List ℤ) : List ℤ × PQ :=
  seeds.foldl
    (fun st sd =>
      let idx := sd.2.1 * w + sd.1
      if idx < st.1.length then (setNth st.1 idx sd.2.2, pqEnqueue st.2 idx 0)
      else st)
    (labels, [])

/-- WatershedSegmenter.segment on a gradient map gm: seeds are (x, y,
label) triples; the label grid starts all zero. -/
def segment (gm : List ℚ) (w h : ℕ) (seeds : List (ℕ × ℕ × ℤ)) : List ℤ :=
  let st := seedInit w seeds (List.replicate (w * h) 0)
  floodFuel gm w h (2 * (w * h) + seeds.length + 1) st.1 st.2

/-- The full labeling pipeline of the claim: gradient from the heightmap,
soft barriers added, then flooding from the seeds. -/
def segmentWithBarriers (hm : List ℚ) (w h : ℕ) (mask : List (List Bool))
    (penalty : ℚ) (seeds : List (ℕ × ℕ × ℤ)) : List ℤ :=
  segment (applyBarriers (computeGradient hm w h) w h mask penalty) w h seeds

/-- Verification predicate: every cell value is zero or positive. -/
def POk (labels : List ℤ) : Prop := ∀ i, nthD labels i 0 = 0 ∨ 0 < nthD labels i 0

/-- Verification predicate: every queued index is in range and labeled. -/
def QOk (w h : ℕ) (labels : List ℤ) (pq : PQ) : Prop :=
  ∀ e ∈ pq, e.1 < w * h ∧ nthD labels e.1 0 ≠ 0

/-- Verification predicate: every labeled cell is queued or has all its
in-grid neighbors labeled. -/
def COk (w h : ℕ) (labels : List ℤ) (pq : PQ) : Prop :=
  ∀ i < w * h, nthD labels i 0 ≠ 0 →
    (∃ p, (i, p) ∈ pq) ∨
      ∀ o ∈ offs w, ∀ j, nbrCell w h i o = some j → nthD labels j 0 ≠ 0

/-- Number of still-unlabeled cells, the flood's termination measure. -/
def zc (n : ℕ) (labels : List ℤ) : ℕ :=
  ((countUp n 0).filter (fun i => nthD labels i 0 = 0)).length

end Wshed

/-! ## Concrete instances used by the counterexamples and witnesses -/

namespace Seam

/-- A 2-row, 5-column grid: the row-0 energies inside ROI [0,3] are
1, 50, 50, 50 and the row-1 energies are 100, 100, 100, 1. -/
def gA : Grid := [[0, 99, 100, 101, 102], [0, 0, 0, 0, 99]]

/-- The 10x10 S2 grid: 50 on the diagonal ridge, 10 elsewhere. -/
def gB : Grid :=
  [[10, 10, 10, 10, 50, 10, 10, 10, 10, 10],
   [10, 10, 10, 10, 10, 50, 10, 10, 10, 10],
   [10, 10, 10, 10, 10, 50, 10, 10, 10, 10],
   [10, 10, 10, 10, 10, 10, 50, 10, 10, 10],
   [10, 10, 10, 10, 10, 10, 50, 10, 10, 10],
   [10, 10, 10, 10, 10, 10, 10, 50, 10, 10],
   [10, 10, 10, 10, 10, 10, 10, 50, 10, 10],
   [10, 10, 10, 10, 10, 10, 10, 10, 50, 10],
   [10, 10, 10, 10, 10, 10, 10, 10, 50, 10],
   [10, 10, 10, 10, 10, 10, 10, 10, 50, 10]]

/-- The ridge polyline the spec's scenario S2 expects. -/
def ridgeSeq : List (ℕ × ℕ) :=
  [(4, 0), (5, 1), (5, 2), (6, 3), (6, 4), (7, 5), (7, 6), (8, 7), (8, 8), (8, 9)]

/-- A 2x2 seam finder state with no mask installed. -/
def stA : SeamState := ⟨[[1, 2], [3, 4]], none⟩

/-- A 1x1 mask, mismatching stA's 2x2 grid. -/
def badMask : Mask := [[true]]

end Seam

namespace HeightMap

/-- A 3-row, 4-column flat grid whose only positive cell is (y, x) = (0, 1)
with value 8; the interior cells (1,1) and (1,2) are zero. -/
def gC : List ℚ := [0, 8, 0, 0, 0, 0, 0, 0, 0, 0, 0, 0]

end HeightMap

namespace Slicer

open Geom

/-- A horizontal cut path lying on the line y = 10. -/
def hPathA : CutPath := [⟨0, 10⟩, ⟨100, 10⟩]

/-- A cap wall triangle produced by that horizontal cut: all vertices sit
at y = 10. -/
def wallA : Tri := (⟨1, 10, 0⟩, ⟨2, 10, 0⟩, ⟨1, 10, 5⟩)

end Slicer

namespace Stl

open Geom

/-- Two triangles whose third vertices differ by 0.0003 in x, colliding
on the toFixed(3) key (both round to 0.000). -/
def tsA : List Tri :=
  [(⟨1, 0, 0⟩, ⟨0, 1, 0⟩, ⟨1 / 10000, 0, 0⟩),
   (⟨1, 0, 0⟩, ⟨0, 1, 0⟩, ⟨4 / 10000, 0, 0⟩)]

/-- A single triangle whose vertex keys are pairwise distinct. -/
def tsB : List Tri := [(⟨1, 0, 0⟩, ⟨0, 1, 0⟩, ⟨0, 0, 1⟩)]

end Stl

namespace Trace

open Geom

/-- A two-point macro edge between regions 1 (left) and 2 (right). -/
def eA : MEdge := ⟨[⟨0, 0⟩, ⟨10, 0⟩], 1, 2⟩

/-- A 3x3 label grid whose center cell is region 2, enclosed by
region 1: the boundary between the two regions is a closed loop whose
four corner points all have degree 2. -/
def labels3 : List ℤ := [1, 1, 1, 1, 2, 1, 1, 1, 1]

end Trace

namespace Wshed

/-- A 2x2 heightmap for the watershed witness. -/
def hmA : List ℚ := [0, 0, 0, 5]

/-- One seed at (0, 0) with label 1. -/
def seedsA : List (ℕ × ℕ × ℤ) := [(0, 0, 1)]

end Wshed

/-! ## Theorems.  Seam finder: DP invariants shared by C1, C2, C3. -/

namespace HueSlicer

theorem nthD_replicate {α : Type} (n i : ℕ) (a : α) :
    nthD (List.replicate n a) i a = a := by
  induction n generalizing i with
  | zero => simp [List.replicate, nthD]
  | succ k ih =>
      cases i with
      | zero => simp [List.replicate, nthD]
      | succ j => simpa [List.replicate, nthD] using ih j

end HueSlicer

namespace Seam

open HueSlicer

theorem cAdd_ne_inf {a b : Cost} (h : cAdd a b ≠ inf) : a ≠ inf ∧ b ≠ inf := by
  cases a with
  | none => simp [cAdd, inf] at h
  | some qa =>
      cases b with
      | none => simp [cAdd, inf] at h
      | some qb => simp [inf]

theorem cLt_inf_right {a : Cost} (h : a ≠ inf) : cLt a inf = true := by
  cases a with
  | none => exact absurd rfl h
  | some q => simp [cLt, inf]

theorem cLt_none_left {b : Cost} : cLt inf b = false := by
  cases b with
  | none => rfl
  | some q => rfl

theorem cLt_asymm {a b : Cost} (h : cLt a b = true) : cLt b a = false := by
  cases a with
  | none => simp [cLt] at h
  | some qa =>
      cases b with
      | none => simp [cLt]
      | some qb =>
          simp only [cLt, decide_eq_true_eq] at h ⊢
          simpa using le_of_lt h

/-- Transitivity of the not-strictly-below relation of the JS order:
if b is not below a and c is not below b then c is not below a. -/
theorem cLe_trans {a b c : Cost} (h1 : cLt b a = false) (h2 : cLt c b = false) :
    cLt c a = false := by
  cases a <;> cases b <;> cases c <;> simp_all [cLt] <;> linarith

/-- If a is strictly below b and c is not strictly below b then c is not
strictly below a either. -/
theorem cLe_of_cLt_of_not_cLt {a b c : Cost} (h1 : cLt a b = true) (h2 : cLt c b = false) :
    cLt c a = false := by
  cases a <;> cases b <;> cases c <;> simp_all [cLt] <;> linarith

/-- The initRow invariant: width-length, and every finite cell is the
row-0 energy of an ROI column. -/
theorem initRow_spec (g : Grid) (m : Option Mask) (s e W : ℕ) :
    (initRow g m s e W).length = W ∧
      ∀ x, nthD (initRow g m s e W) x inf ≠ inf →
        s ≤ x ∧ x ≤ e ∧ nthD (initRow g m s e W) x inf = energy g m 0 x := by
  unfold initRow
  refine foldl_inv
    (fun d : List Cost => d.length = W ∧
      ∀ x, nthD d x inf ≠ inf → s ≤ x ∧ x ≤ e ∧ nthD d x inf = energy g m 0 x)
    _ _ _ ⟨by simp, ?_⟩ ?_
  · intro x hx
    rw [nthD_replicate] at hx
    exact absurd rfl hx
  · rintro a ha d ⟨hlen, hd⟩
    split
    · rename_i haW
      refine ⟨by rw [length_setNth, hlen], ?_⟩
      intro x hx
      by_cases hax : a = x
      · subst hax
        rw [nthD_setNth_self _ _ _ _ (by rw [hlen]; exact haW)] at hx ⊢
        rcases rangeIncl_mem ha with ⟨h1, h2⟩
        exact ⟨h1, h2, rfl⟩
      · rw [nthD_setNth_ne _ _ _ _ _ hax] at hx ⊢
        exact hd x hx
    · exact ⟨hlen, hd⟩
end Seam

namespace Seam

open HueSlicer

/-- The row invariant maintained by the relaxation loop sitting above the
previous dist row prev: finite cells are ROI cells whose value decomposes
as parent value plus own energy, with the recorded parent an adjacent,
finite ROI column. -/
def RowInv (E1 : ℕ → Cost) (s e W : ℕ) (prev : List Cost) (st : List Cost × List ℕ) : Prop :=
  st.1.length = W ∧ st.2.length = W ∧
    ∀ nx, nthD st.1 nx inf ≠ inf →
      s ≤ nx ∧ nx ≤ e ∧ nx < W ∧ E1 nx ≠ inf ∧
        s ≤ nthD st.2 nx 0 ∧ nthD st.2 nx 0 ≤ e ∧
        nthD st.2 nx 0 ≤ nx + 1 ∧ nx ≤ nthD st.2 nx 0 + 1 ∧
        nthD prev (nthD st.2 nx 0) inf ≠ inf ∧
        nthD st.1 nx inf = cAdd (nthD prev (nthD st.2 nx 0) inf) (E1 nx)

theorem relaxInto_pres (E1 : ℕ → Cost) (s e W : ℕ) (prev : List Cost) (x : ℕ) (nxi : ℤ)
    (st : List Cost × List ℕ)
    (hdxf : nthD prev x inf ≠ inf) (hx1 : s ≤ x) (hx2 : x ≤ e)
    (hnb : nxi = (x : ℤ) - 1 ∨ nxi = (x : ℤ) ∨ nxi = (x : ℤ) + 1)
    (hP : RowInv E1 s e W prev st) :
    RowInv E1 s e W prev (relaxInto E1 s e W (nthD prev x inf) x st nxi) := by
  obtain ⟨hl1, hl2, hinv⟩ := hP
  unfold relaxInto
  split
  · rename_i hguard
    obtain ⟨hg1, hg2, hg3, hg4⟩ := hguard
    split
    · exact ⟨hl1, hl2, hinv⟩
    · rename_i hEfin
      split
      · rename_i hlt
        have hnxW : nxi.toNat < W := by omega
        have hnxs : s ≤ nxi.toNat := by omega
        have hnxe : nxi.toNat ≤ e := by omega
        refine ⟨by rw [length_setNth, hl1], by rw [length_setNth, hl2], ?_⟩
        intro nx hnx
        have e2same : nthD (setNth st.2 nxi.toNat x) nxi.toNat 0 = x :=
          nthD_setNth_self _ _ _ _ (by rw [hl2]; exact hnxW)
        by_cases hcase : nx = nxi.toNat
        · subst hcase
          have e1same : nthD (setNth st.1 nxi.toNat (cAdd (nthD prev x inf) (E1 nxi.toNat)))
              nxi.toNat inf = cAdd (nthD prev x inf) (E1 nxi.toNat) :=
            nthD_setNth_self _ _ _ _ (by rw [hl1]; exact hnxW)
          rw [e1same] at hnx
          rw [e1same, e2same]
          refine ⟨hnxs, hnxe, hnxW, ?_, hx1, hx2, by omega, by omega, hdxf, rfl⟩
          intro hEinf
          rw [hEinf] at hEfin
          exact hEfin (by rfl)
        · have e1ne : nthD (setNth st.1 nxi.toNat (cAdd (nthD prev x inf) (E1 nxi.toNat)))
              nx inf = nthD st.1 nx inf :=
            nthD_setNth_ne _ _ _ _ _ (fun hh => hcase hh.symm)
          have e2ne : nthD (setNth st.2 nxi.toNat x) nx 0 = nthD st.2 nx 0 :=
            nthD_setNth_ne _ _ _ _ _ (fun hh => hcase hh.symm)
          rw [e1ne] at hnx
          rw [e1ne, e2ne]
          exact hinv nx hnx
      · exact ⟨hl1, hl2, hinv⟩
  · exact ⟨hl1, hl2, hinv⟩

theorem relaxFrom_pres (E1 : ℕ → Cost) (s e W : ℕ) (prev : List Cost) (x : ℕ)
    (st : List Cost × List ℕ) (hx1 : s ≤ x) (hx2 : x ≤ e)
    (hP : RowInv E1 s e W prev st) :
    RowInv E1 s e W prev (relaxFrom E1 s e W prev st x) := by
  unfold relaxFrom
  split
  · exact hP
  · rename_i hfin
    have hdxf : nthD prev x inf ≠ inf := by
      intro hh
      rw [hh] at hfin
      exact hfin (by rfl)
    refine foldl_inv (RowInv E1 s e W prev) _ _ _ hP ?_
    intro a ha st2 hst2
    have hnb : a = (x : ℤ) - 1 ∨ a = (x : ℤ) ∨ a = (x : ℤ) + 1 := by
      simpa using ha
    exact relaxInto_pres E1 s e W prev x a st2 hdxf hx1 hx2 hnb hst2

theorem stepRow_spec (E1 : ℕ → Cost) (s e W : ℕ) (prev : List Cost) :
    RowInv E1 s e W prev (stepRow E1 s e W prev) := by
  unfold stepRow
  refine foldl_inv (RowInv E1 s e W prev) _ _ _ ⟨by simp, by simp, ?_⟩ ?_
  · intro nx hnx
    rw [nthD_replicate] at hnx
    exact absurd rfl hnx
  · intro a ha st hst
    rcases rangeIncl_mem ha with ⟨h1, h2⟩
    exact relaxFrom_pres E1 s e W prev a st h1 h2 hst

/-- Row lengths of the DP tables. -/
theorem rows_len (g : Grid) (m : Option Mask) (s e y : ℕ) :
    (rows g m s e y).1.length = gW g ∧ (rows g m s e y).2.length = gW g := by
  cases y with
  | zero => exact ⟨(initRow_spec g m s e (gW g)).1, by simp [rows]⟩
  | succ k =>
      have h := stepRow_spec (fun x => energy g m (k + 1) x) s e (gW g) (rows g m s e k).1
      exact ⟨h.1, h.2.1⟩

/-- Finite row-0 cells are ROI cells holding their own energy. -/
theorem dv0_spec (g : Grid) (m : Option Mask) (s e x : ℕ)
    (h : dv g m s e 0 x ≠ inf) :
    s ≤ x ∧ x ≤ e ∧ dv g m s e 0 x = energy g m 0 x :=
  (initRow_spec g m s e (gW g)).2 x h

/-- Finite later-row cells decompose through their recorded parent. -/
theorem dvSucc_spec (g : Grid) (m : Option Mask) (s e y x : ℕ)
    (h : dv g m s e (y + 1) x ≠ inf) :
    s ≤ x ∧ x ≤ e ∧ x < gW g ∧ energy g m (y + 1) x ≠ inf ∧
      s ≤ pv g m s e (y + 1) x ∧ pv g m s e (y + 1) x ≤ e ∧
      pv g m s e (y + 1) x ≤ x + 1 ∧ x ≤ pv g m s e (y + 1) x + 1 ∧
      dv g m s e y (pv g m s e (y + 1) x) ≠ inf ∧
      dv g m s e (y + 1) x =
        cAdd (dv g m s e y (pv g m s e (y + 1) x)) (energy g m (y + 1) x) :=
  (stepRow_spec (fun x2 => energy g m (y + 1) x2) s e (gW g) (rows g m s e y).1).2.2 x h

end Seam

namespace HueSlicer

theorem nthD_map_range {α : Type} (n i : ℕ) (f : ℕ → α) (d : α) :
    nthD ((List.range n).map f) i d = if i < n then f i else d := by
  induction n generalizing i f d with
  | zero => simp [nthD]
  | succ k ih =>
      rw [List.range_succ_eq_map]
      cases i with
      | zero => simp [nthD]
      | succ j =>
          simp only [List.map_cons, List.map_map, nthD]
          rw [ih j (f ∘ Nat.succ) d]
          simp only [Function.comp, Nat.succ_eq_add_one, Nat.add_lt_add_iff_right]


end HueSlicer

namespace Seam

open HueSlicer

theorem cLt_irrefl (a : Cost) : cLt a a = false := by
  cases a <;> simp [cLt]

theorem cLt_ne_inf {a b : Cost} (h : cLt a b = true) : a ≠ inf := by
  cases a with
  | none => simp [cLt] at h
  | some q => simp [inf]

theorem cLt_of_cLe_of_cLt {a b c : Cost} (h1 : cLt b a = false) (h2 : cLt b c = true) :
    cLt a c = true := by
  cases a <;> cases b <;> cases c <;> simp_all [cLt] <;> linarith

/-- The running-minimum scan underlying the bestEnd fold: the result is at
most the start, at most every scanned value, and either the untouched
start or the value at a scanned index, finite and recorded. -/
theorem argmin_fold (f : ℕ → Cost) (l : List ℕ) (st0 : Cost × Option ℕ) :
    cLt st0.1
        (l.foldl (fun st x => if cLt (f x) st.1 = true then (f x, some x) else st) st0).1 =
        false ∧
      (∀ x ∈ l,
        cLt (f x)
            (l.foldl (fun st x => if cLt (f x) st.1 = true then (f x, some x) else st) st0).1 =
          false) ∧
      ((l.foldl (fun st x => if cLt (f x) st.1 = true then (f x, some x) else st) st0) = st0 ∨
        ∃ x ∈ l,
          (l.foldl (fun st x => if cLt (f x) st.1 = true then (f x, some x) else st) st0).1 =
              f x ∧
            (l.foldl (fun st x => if cLt (f x) st.1 = true then (f x, some x) else st) st0).2 =
              some x ∧ f x ≠ inf) := by
  induction l generalizing st0 with
  | nil => exact ⟨cLt_irrefl _, by simp, Or.inl rfl⟩
  | cons x xs ih =>
      simp only [List.foldl_cons]
      by_cases hlt : cLt (f x) st0.1 = true
      · rw [if_pos hlt]
        obtain ⟨ihA, ihB, ihC⟩ := ih (f x, some x)
        refine ⟨?_, ?_, ?_⟩
        · exact cLt_asymm (cLt_of_cLe_of_cLt ihA hlt)
        · intro y hy
          rcases List.mem_cons.mp hy with rfl | hy2
          · exact ihA
          · exact ihB y hy2
        · rcases ihC with hC | ⟨z, hz, hz1, hz2, hz3⟩
          · exact Or.inr ⟨x, by simp, by rw [hC], by rw [hC], cLt_ne_inf hlt⟩
          · exact Or.inr ⟨z, List.mem_cons_of_mem _ hz, hz1, hz2, hz3⟩
      · rw [if_neg hlt]
        obtain ⟨ihA, ihB, ihC⟩ := ih st0
        refine ⟨ihA, ?_, ?_⟩
        · intro y hy
          rcases List.mem_cons.mp hy with rfl | hy2
          · have hfalse : cLt (f y) st0.1 = false := by
              cases hcl : cLt (f y) st0.1
              · rfl
              · exact absurd hcl hlt
            exact cLe_trans ihA hfalse
          · exact ihB y hy2
        · rcases ihC with hC | ⟨z, hz, hz1, hz2, hz3⟩
          · exact Or.inl hC
          · exact Or.inr ⟨z, List.mem_cons_of_mem _ hz, hz1, hz2, hz3⟩

end Seam

namespace Seam

open HueSlicer

/-- bestEnd: the recorded column is a finite-cost ROI minimum of the last
row. -/
theorem bestEnd_some_spec (g : Grid) (m : Option Mask) (s e endX : ℕ)
    (h : (bestEnd g m s e).2 = some endX) :
    s ≤ endX ∧ endX ≤ e ∧
      (bestEnd g m s e).1 = dv g m s e (gH g - 1) endX ∧
      dv g m s e (gH g - 1) endX ≠ inf ∧
      ∀ x, s ≤ x → x ≤ e →
        cLt (dv g m s e (gH g - 1) x) (dv g m s e (gH g - 1) endX) = false := by
  have hfold := argmin_fold (fun x => dv g m s e (gH g - 1) x) (rangeIncl s e) (inf, Option.none)
  rcases hfold.2.2 with hsame | ⟨z, hz, hz1, hz2, hz3⟩
  · rw [show bestEnd g m s e =
      (rangeIncl s e).foldl
        (fun st x => if cLt (dv g m s e (gH g - 1) x) st.1 = true
          then (dv g m s e (gH g - 1) x, some x) else st) (inf, Option.none) from rfl] at h
    rw [hsame] at h
    exact absurd h (by simp)
  · have hbe : bestEnd g m s e =
      (rangeIncl s e).foldl
        (fun st x => if cLt (dv g m s e (gH g - 1) x) st.1 = true
          then (dv g m s e (gH g - 1) x, some x) else st) (inf, Option.none) := rfl
    rw [hbe] at h
    have hzx : z = endX := by
      rw [hz2] at h
      exact Option.some.inj h
    subst hzx
    rcases rangeIncl_mem hz with ⟨hz4, hz5⟩
    refine ⟨hz4, hz5, by rw [hbe, hz1], hz3, ?_⟩
    intro x hx1 hx2
    have hB := hfold.2.1 x (mem_rangeIncl hx1 hx2)
    rw [hz1] at hB
    exact hB

/-- bestEnd: when no column is recorded, every ROI last-row cell is
Infinity. -/
theorem bestEnd_none_spec (g : Grid) (m : Option Mask) (s e : ℕ)
    (h : (bestEnd g m s e).2 = Option.none) :
    ∀ x, s ≤ x → x ≤ e → dv g m s e (gH g - 1) x = inf := by
  have hfold := argmin_fold (fun x => dv g m s e (gH g - 1) x) (rangeIncl s e) (inf, Option.none)
  intro x hx1 hx2
  have hB := hfold.2.1 x (mem_rangeIncl hx1 hx2)
  have hbe : bestEnd g m s e =
    (rangeIncl s e).foldl
      (fun st x => if cLt (dv g m s e (gH g - 1) x) st.1 = true
        then (dv g m s e (gH g - 1) x, some x) else st) (inf, Option.none) := rfl
  rcases hfold.2.2 with hsame | ⟨z, hz, hz1, hz2, hz3⟩
  · rw [← hbe, hbe, hsame] at hB
    by_contra hne
    rw [cLt_inf_right hne] at hB
    exact Bool.true_eq_false.mp hB
  · rw [hbe, hz2] at h
    exact absurd h (by simp)

/-- The backtracked column chain stays finite and inside the ROI. -/
theorem chain_spec (g : Grid) (m : Option Mask) (s e endX : ℕ)
    (h : (bestEnd g m s e).2 = some endX) :
    ∀ k, k ≤ gH g - 1 →
      s ≤ colFromEnd g m s e endX k ∧ colFromEnd g m s e endX k ≤ e ∧
        dv g m s e (gH g - 1 - k) (colFromEnd g m s e endX k) ≠ inf := by
  intro k
  induction k with
  | zero =>
      intro _
      obtain ⟨h1, h2, _, h4, _⟩ := bestEnd_some_spec g m s e endX h
      simpa [colFromEnd] using ⟨h1, h2, h4⟩
  | succ j ih =>
      intro hj
      have hj2 : j ≤ gH g - 1 := by omega
      obtain ⟨ih1, ih2, ih3⟩ := ih hj2
      have hrow : gH g - 1 - j = (gH g - 1 - (j + 1)) + 1 := by omega
      rw [hrow] at ih3
      obtain ⟨_, _, _, _, hp1, hp2, _, _, hp5, _⟩ :=
        dvSucc_spec g m s e (gH g - 1 - (j + 1)) (colFromEnd g m s e endX j) ih3
      refine ⟨?_, ?_, ?_⟩
      · show s ≤ pv g m s e (gH g - 1 - j) (colFromEnd g m s e endX j)
        rw [hrow]
        exact hp1
      · show pv g m s e (gH g - 1 - j) (colFromEnd g m s e endX j) ≤ e
        rw [hrow]
        exact hp2
      · show dv g m s e (gH g - 1 - (j + 1))
          (pv g m s e (gH g - 1 - j) (colFromEnd g m s e endX j)) ≠ inf
        rw [hrow]
        exact hp5

/-- Adjacent backtracked columns differ by at most one. -/
theorem chain_adj (g : Grid) (m : Option Mask) (s e endX : ℕ)
    (h : (bestEnd g m s e).2 = some endX) :
    ∀ k, k + 1 ≤ gH g - 1 →
      colFromEnd g m s e endX (k + 1) ≤ colFromEnd g m s e endX k + 1 ∧
        colFromEnd g m s e endX k ≤ colFromEnd g m s e endX (k + 1) + 1 := by
  intro k hk
  obtain ⟨_, _, ih3⟩ := chain_spec g m s e endX h k (by omega)
  have hrow : gH g - 1 - k = (gH g - 1 - (k + 1)) + 1 := by omega
  rw [hrow] at ih3
  obtain ⟨_, _, _, _, _, _, hp3, hp4, _, _⟩ :=
    dvSucc_spec g m s e (gH g - 1 - (k + 1)) (colFromEnd g m s e endX k) ih3
  constructor
  · show pv g m s e (gH g - 1 - k) (colFromEnd g m s e endX k) ≤ colFromEnd g m s e endX k + 1
    rw [hrow]
    exact hp3
  · show colFromEnd g m s e endX k ≤ pv g m s e (gH g - 1 - k) (colFromEnd g m s e endX k) + 1
    rw [hrow]
    exact hp4

end Seam

namespace Seam

open HueSlicer

/-- C2.  Every polyline returned by findVerticalSeam (fallback included)
has one point per row with y = i, columns inside the ROI, and adjacent
columns differing by at most one. -/
theorem C2_theorem (g : Grid) (m : Option Mask) (s e : ℕ) (hse : s ≤ e) :
    (findVerticalSeam g m s e).length = gH g ∧
      (∀ i, i < gH g →
        (nthD (findVerticalSeam g m s e) i (0, 0)).2 = i ∧
          s ≤ (nthD (findVerticalSeam g m s e) i (0, 0)).1 ∧
          (nthD (findVerticalSeam g m s e) i (0, 0)).1 ≤ e) ∧
      ∀ i, i + 1 < gH g →
        (nthD (findVerticalSeam g m s e) (i + 1) (0, 0)).1 ≤
            (nthD (findVerticalSeam g m s e) i (0, 0)).1 + 1 ∧
          (nthD (findVerticalSeam g m s e) i (0, 0)).1 ≤
            (nthD (findVerticalSeam g m s e) (i + 1) (0, 0)).1 + 1 := by
  rcases hbe : (bestEnd g m s e).2 with _ | endX
  · have hseam : findVerticalSeam g m s e =
        (List.range (gH g)).map (fun y => ((s + e) / 2, y)) := by
      unfold findVerticalSeam
      rw [hbe]
    rw [hseam]
    refine ⟨by simp, ?_, ?_⟩
    · intro i hi
      rw [nthD_map_range, if_pos hi]
      exact ⟨rfl, by omega, by omega⟩
    · intro i hi
      rw [nthD_map_range, nthD_map_range, if_pos hi, if_pos (by omega)]
      exact ⟨by omega, by omega⟩
  · have hseam : findVerticalSeam g m s e =
        (List.range (gH g)).map (fun y => (colFromEnd g m s e endX (gH g - 1 - y), y)) := by
      unfold findVerticalSeam
      rw [hbe]
    rw [hseam]
    refine ⟨by simp, ?_, ?_⟩
    · intro i hi
      rw [nthD_map_range, if_pos hi]
      obtain ⟨h1, h2, _⟩ := chain_spec g m s e endX hbe (gH g - 1 - i) (by omega)
      exact ⟨rfl, h1, h2⟩
    · intro i hi
      rw [nthD_map_range, nthD_map_range, if_pos hi, if_pos (by omega)]
      have hk : gH g - 1 - i = (gH g - 1 - (i + 1)) + 1 := by omega
      obtain ⟨ha1, ha2⟩ := chain_adj g m s e endX hbe (gH g - 1 - (i + 1)) (by omega)
      rw [hk]
      exact ⟨by omega, by omega⟩

/-- Witness for C2 at the concrete grid gA with ROI [0, 3]. -/
theorem C2_witness :
    (0 : ℕ) ≤ 3 ∧
      ((findVerticalSeam gA none 0 3).length = gH gA ∧
        (∀ i, i < gH gA →
          (nthD (findVerticalSeam gA none 0 3) i (0, 0)).2 = i ∧
            0 ≤ (nthD (findVerticalSeam gA none 0 3) i (0, 0)).1 ∧
            (nthD (findVerticalSeam gA none 0 3) i (0, 0)).1 ≤ 3) ∧
        ∀ i, i + 1 < gH gA →
          (nthD (findVerticalSeam gA none 0 3) (i + 1) (0, 0)).1 ≤
              (nthD (findVerticalSeam gA none 0 3) i (0, 0)).1 + 1 ∧
            (nthD (findVerticalSeam gA none 0 3) i (0, 0)).1 ≤
              (nthD (findVerticalSeam gA none 0 3) (i + 1) (0, 0)).1 + 1) :=
  ⟨by norm_num, C2_theorem gA none 0 3 (by norm_num)⟩

end Seam

namespace HueSlicer

/-- Literal-friendly Int.toNat evaluation for the simp evaluation calls. -/
theorem intToNatLit (n : ℕ) : (no_index (OfNat.ofNat n) : ℤ).toNat = OfNat.ofNat n := rfl

end HueSlicer

namespace Seam

open HueSlicer

theorem cAdd_zero_left (z : Cost) : cAdd (some 0) z = z := by
  cases z <;> simp [cAdd]

theorem cAdd_zero_right (a : Cost) : cAdd a (some 0) = a := by
  cases a <;> simp [cAdd]

theorem cAdd_assoc (a b c : Cost) : cAdd (cAdd a b) c = cAdd a (cAdd b c) := by
  cases a <;> cases b <;> cases c <;> simp [cAdd] <;> ring

theorem foldr_cAdd_ext (l : List Cost) (z : Cost) :
    l.foldr cAdd z = cAdd (listCSum l) z := by
  induction l with
  | nil => simp [listCSum, cAdd_zero_left]
  | cons a t ih =>
      simp only [listCSum, List.foldr_cons] at ih ⊢
      rw [ih, ← cAdd_assoc]

theorem listCSum_append_single (l : List Cost) (a : Cost) :
    listCSum (l ++ [a]) = cAdd (listCSum l) a := by
  unfold listCSum
  rw [List.foldr_append]
  simp only [List.foldr_cons, List.foldr_nil]
  rw [foldr_cAdd_ext l (cAdd a (some 0)), cAdd_zero_right]
  rfl

theorem colFromEnd_succ (g : Grid) (m : Option Mask) (s e endX k : ℕ) :
    colFromEnd g m s e endX (k + 1) =
      pv g m s e (gH g - 1 - k) (colFromEnd g m s e endX k) := rfl

/-- Along the backtracked path, the prefix sums of energies reproduce the
dist values row by row. -/
theorem path_sum (g : Grid) (m : Option Mask) (s e endX : ℕ)
    (hbe : (bestEnd g m s e).2 = some endX) :
    ∀ k, 1 ≤ k → k ≤ gH g →
      listCSum ((List.range k).map
          (fun y => energy g m y (colFromEnd g m s e endX (gH g - 1 - y)))) =
        dv g m s e (k - 1) (colFromEnd g m s e endX (gH g - 1 - (k - 1))) := by
  intro k
  induction k with
  | zero => omega
  | succ j ih =>
      intro _ hle
      by_cases hj : j = 0
      · subst hj
        have hc := chain_spec g m s e endX hbe (gH g - 1) (by omega)
        have h0 : gH g - 1 - (gH g - 1) = 0 := by omega
        rw [h0] at hc
        obtain ⟨_, _, hfin⟩ := hc
        obtain ⟨_, _, hval⟩ := dv0_spec g m s e _ hfin
        rw [show List.range 1 = [0] from rfl]
        simp only [List.map_cons, List.map_nil]
        rw [show listCSum [energy g m 0 (colFromEnd g m s e endX (gH g - 1 - 0))] =
          cAdd (energy g m 0 (colFromEnd g m s e endX (gH g - 1 - 0))) (some 0) from rfl]
        rw [cAdd_zero_right]
        simpa using hval.symm
      · have hj1 : 1 ≤ j := by omega
        have hjH : j ≤ gH g := by omega
        have hIH := ih hj1 hjH
        rw [List.range_succ, List.map_append, List.map_cons, List.map_nil,
          listCSum_append_single, hIH]
        have hfin : dv g m s e ((j - 1) + 1)
            (colFromEnd g m s e endX (gH g - 1 - j)) ≠ inf := by
          rw [show (j - 1) + 1 = j from by omega]
          have hc := chain_spec g m s e endX hbe (gH g - 1 - j) (by omega)
          have heq : gH g - 1 - (gH g - 1 - j) = j := by omega
          rw [heq] at hc
          exact hc.2.2
        obtain ⟨_, _, _, _, _, _, _, _, _, hdec⟩ :=
          dvSucc_spec g m s e (j - 1) (colFromEnd g m s e endX (gH g - 1 - j)) hfin
        have hpar : pv g m s e ((j - 1) + 1) (colFromEnd g m s e endX (gH g - 1 - j)) =
            colFromEnd g m s e endX (gH g - 1 - (j - 1)) := by
          rw [show gH g - 1 - (j - 1) = (gH g - 1 - j) + 1 from by omega]
          rw [colFromEnd_succ]
          rw [show gH g - 1 - (gH g - 1 - j) = (j - 1) + 1 from by omega]
        rw [hpar] at hdec
        rw [show (j + 1 - 1) = (j - 1) + 1 from by omega]
        rw [show gH g - 1 - ((j - 1) + 1) = gH g - 1 - j from by omega]
        rw [show energy g m j (colFromEnd g m s e endX (gH g - 1 - j)) =
          energy g m ((j - 1) + 1) (colFromEnd g m s e endX (gH g - 1 - j)) from by
            rw [show (j - 1) + 1 = j from by omega]]
        exact hdec.symm

end Seam

namespace Seam

open HueSlicer

/-- C1 (amended).  When some last-row ROI cell is finite, the seam ends at
a recorded column whose last-row DP cost is minimal over the masked ROI,
and the sum of the energies along the backtracked polyline equals that
last-row DP cost.  (Per-row minimality holds at the last row only; see the
counterexample.) -/
theorem C1_theorem (g : Grid) (m : Option Mask) (s e : ℕ) (hse : s ≤ e)
    (hH : 1 ≤ gH g)
    (hfin : ∃ x, s ≤ x ∧ x ≤ e ∧ dv g m s e (gH g - 1) x ≠ inf) :
    ∃ endX, (bestEnd g m s e).2 = some endX ∧
      (nthD (findVerticalSeam g m s e) (gH g - 1) (0, 0)).1 = endX ∧
      (∀ x, s ≤ x → x ≤ e →
        cLt (dv g m s e (gH g - 1) x) (dv g m s e (gH g - 1) endX) = false) ∧
      listCSum ((findVerticalSeam g m s e).map (fun pt => energy g m pt.2 pt.1)) =
        dv g m s e (gH g - 1) endX := by
  rcases hbe : (bestEnd g m s e).2 with _ | endX
  · obtain ⟨x, hx1, hx2, hx3⟩ := hfin
    exact absurd (bestEnd_none_spec g m s e hbe x hx1 hx2) hx3
  · refine ⟨endX, rfl, ?_, ?_, ?_⟩
    · have hseam : findVerticalSeam g m s e =
          (List.range (gH g)).map (fun y => (colFromEnd g m s e endX (gH g - 1 - y), y)) := by
        unfold findVerticalSeam
        rw [hbe]
      rw [hseam, nthD_map_range, if_pos (by omega)]
      show colFromEnd g m s e endX (gH g - 1 - (gH g - 1)) = endX
      rw [show gH g - 1 - (gH g - 1) = 0 from by omega]
      rfl
    · exact (bestEnd_some_spec g m s e endX hbe).2.2.2.2
    · have hseam : findVerticalSeam g m s e =
          (List.range (gH g)).map (fun y => (colFromEnd g m s e endX (gH g - 1 - y), y)) := by
        unfold findVerticalSeam
        rw [hbe]
      rw [hseam, List.map_map]
      have hsum := path_sum g m s e endX hbe (gH g) hH (le_refl _)
      rw [show gH g - 1 - (gH g - 1) = 0 from by omega] at hsum
      rw [show colFromEnd g m s e endX 0 = endX from rfl] at hsum
      rw [show ((fun pt : ℕ × ℕ => energy g m pt.2 pt.1) ∘
          fun y => (colFromEnd g m s e endX (gH g - 1 - y), y)) =
          fun y => energy g m y (colFromEnd g m s e endX (gH g - 1 - y)) from rfl]
      exact hsum

/-- The DP tables of gA, evaluated: row 0. -/
theorem rowsA0 : rows gA none 0 3 0 =
    ([some 1, some 50, some 50, some 50, none], [0, 0, 0, 0, 0]) := by
  norm_num [rows, initRow, rangeIncl, countUp, cell, gW, energy, gA, nthD, setNth, inf,
    List.replicate_succ, List.replicate_zero]

/-- The DP tables of gA, evaluated: row 1. -/
theorem rowsA1 : rows gA none 0 3 1 =
    ([some 101, some 101, some 150, some 51, none], [0, 0, 1, 2, 0]) := by
  rw [rows_succ, rowsA0]
  norm_num [stepRow, relaxFrom, relaxInto, rangeIncl, countUp, cell, gW, energy, gA, nthD,
    setNth, inf, isInf, cAdd, cLt, List.replicate_succ, List.replicate_zero, intToNatLit]

/-- The dimensions of gA. -/
theorem gHA : gH gA = 2 := by norm_num [gH, gA]

/-- The bestEnd scan of gA, evaluated. -/
theorem bestEndA : bestEnd gA none 0 3 = (some 51, some 3) := by
  norm_num [bestEnd, dv, rowsA1, gHA, rangeIncl, countUp, nthD, cLt, inf]

/-- The seam of gA, evaluated. -/
theorem seamA : findVerticalSeam gA none 0 3 = [(2, 0), (3, 1)] := by
  norm_num [findVerticalSeam, bestEndA, colFromEnd, pv, rowsA1, gHA, nthD,
    List.range_succ]

/-- Witness for C1 at gA with ROI [0, 3]: row 1 column 3 is finite. -/
theorem C1_witness :
    ((0 : ℕ) ≤ 3 ∧ 1 ≤ gH gA ∧
        ∃ x, 0 ≤ x ∧ x ≤ 3 ∧ dv gA none 0 3 (gH gA - 1) x ≠ inf) ∧
      ∃ endX, (bestEnd gA none 0 3).2 = some endX ∧
        (nthD (findVerticalSeam gA none 0 3) (gH gA - 1) (0, 0)).1 = endX ∧
        (∀ x, 0 ≤ x → x ≤ 3 →
          cLt (dv gA none 0 3 (gH gA - 1) x) (dv gA none 0 3 (gH gA - 1) endX) = false) ∧
        listCSum ((findVerticalSeam gA none 0 3).map (fun pt => energy gA none pt.2 pt.1)) =
          dv gA none 0 3 (gH gA - 1) endX := by
  have hfin : ∃ x, 0 ≤ x ∧ x ≤ 3 ∧ dv gA none 0 3 (gH gA - 1) x ≠ inf := by
    refine ⟨3, by norm_num, by norm_num, ?_⟩
    have hval : dv gA none 0 3 (gH gA - 1) 3 = some 51 := by
      norm_num [dv, rowsA1, gHA, nthD]
    rw [hval]
    simp [inf]
  exact ⟨⟨by norm_num, by norm_num [gHA], hfin⟩,
    C1_theorem gA none 0 3 (by norm_num) (by norm_num [gHA]) hfin⟩

/-- Counterexample to C1 as stated: on gA the seam passes row 0 at column
2 with DP cost 50, while column 0 of row 0 costs 1, so the seam column
does not minimise the DP cost of every row. -/
theorem C1_counterexample :
    ∃ r, r < gH gA ∧ ∃ x, 0 ≤ x ∧ x ≤ 3 ∧
      cLt (dv gA none 0 3 r x)
        (dv gA none 0 3 r (nthD (findVerticalSeam gA none 0 3) r (0, 0)).1) = true := by
  refine ⟨0, by norm_num [gHA], 0, by norm_num, by norm_num, ?_⟩
  have h00 : dv gA none 0 3 0 0 = some 1 := by
    unfold dv
    rw [rowsA0]
    norm_num [nthD]
  have h02 : dv gA none 0 3 0 2 = some 50 := by
    unfold dv
    rw [rowsA0]
    norm_num [nthD]
  rw [seamA]
  norm_num [nthD, h00, h02, cLt]

end Seam

namespace Seam

open HueSlicer

/-- The dimensions of gB. -/
theorem gHB : gH gB = 10 := by norm_num [gH, gB]

/-- The DP tables of gB with ROI [2, 8], evaluated row by row. -/
theorem rowsB0 : rows gB none 2 8 0 =
    ([none, none, some 100, some (100/41), some (100/41), some 100, some 100, some 100, some 100, none],
     [0, 0, 0, 0, 0, 0, 0, 0, 0, 0]) := by
  norm_num [rows, initRow, rangeIncl, countUp, cell, gW, energy, gB, nthD, setNth, inf,
    List.replicate_succ, List.replicate_zero]

theorem rowsB1 : rows gB none 2 8 1 =
    ([none, none, some (4200/41), some (4200/41), some (200/41), some (200/41), some 200, some 200, some 200, none],
     [0, 0, 3, 3, 3, 4, 5, 6, 7, 0]) := by
  rw [rows_succ, rowsB0]
  norm_num [stepRow, relaxFrom, relaxInto, rangeIncl, countUp, cell, gW, energy, gB, nthD,
    setNth, inf, isInf, cAdd, cLt, List.replicate_succ, List.replicate_zero, intToNatLit]

theorem rowsB2 : rows gB none 2 8 2 =
    ([none, none, some (8300/41), some (4300/41), some (300/41), some (300/41), some (4300/41), some 300, some 300, none],
     [0, 0, 2, 4, 4, 4, 5, 6, 7, 0]) := by
  rw [rows_succ, rowsB1]
  norm_num [stepRow, relaxFrom, relaxInto, rangeIncl, countUp, cell, gW, energy, gB, nthD,
    setNth, inf, isInf, cAdd, cLt, List.replicate_succ, List.replicate_zero, intToNatLit]

theorem rowsB3 : rows gB none 2 8 3 =
    ([none, none, some (8400/41), some (4400/41), some (4400/41), some (400/41), some (400/41), some (8400/41), some 400, none],
     [0, 0, 3, 4, 4, 4, 5, 6, 7, 0]) := by
  rw [rows_succ, rowsB2]
  norm_num [stepRow, relaxFrom, relaxInto, rangeIncl, countUp, cell, gW, energy, gB, nthD,
    setNth, inf, isInf, cAdd, cLt, List.replicate_succ, List.replicate_zero, intToNatLit]

theorem rowsB4 : rows gB none 2 8 4 =
    ([none, none, some (8500/41), some (8500/41), some (4500/41), some (500/41), some (500/41), some (4500/41), some (12500/41), none],
     [0, 0, 3, 3, 5, 5, 5, 6, 7, 0]) := by
  rw [rows_succ, rowsB3]
  norm_num [stepRow, relaxFrom, relaxInto, rangeIncl, countUp, cell, gW, energy, gB, nthD,
    setNth, inf, isInf, cAdd, cLt, List.replicate_succ, List.replicate_zero, intToNatLit]

theorem rowsB5 : rows gB none 2 8 5 =
    ([none, none, some (12600/41), some (8600/41), some (4600/41), some (4600/41), some (600/41), some (600/41), some (8600/41), none],
     [0, 0, 2, 4, 5, 5, 5, 6, 7, 0]) := by
  rw [rows_succ, rowsB4]
  norm_num [stepRow, relaxFrom, relaxInto, rangeIncl, countUp, cell, gW, energy, gB, nthD,
    setNth, inf, isInf, cAdd, cLt, List.replicate_succ, List.replicate_zero, intToNatLit]

theorem rowsB6 : rows gB none 2 8 6 =
    ([none, none, some (12700/41), some (8700/41), some (8700/41), some (4700/41), some (700/41), some (700/41), some (4700/41), none],
     [0, 0, 3, 4, 4, 6, 6, 6, 7, 0]) := by
  rw [rows_succ, rowsB5]
  norm_num [stepRow, relaxFrom, relaxInto, rangeIncl, countUp, cell, gW, energy, gB, nthD,
    setNth, inf, isInf, cAdd, cLt, List.replicate_succ, List.replicate_zero, intToNatLit]

theorem rowsB7 : rows gB none 2 8 7 =
    ([none, none, some (12800/41), some (12800/41), some (8800/41), some (4800/41), some (4800/41), some (800/41), some (800/41), none],
     [0, 0, 3, 3, 5, 6, 6, 6, 7, 0]) := by
  rw [rows_succ, rowsB6]
  norm_num [stepRow, relaxFrom, relaxInto, rangeIncl, countUp, cell, gW, energy, gB, nthD,
    setNth, inf, isInf, cAdd, cLt, List.replicate_succ, List.replicate_zero, intToNatLit]

theorem rowsB8 : rows gB none 2 8 8 =
    ([none, none, some (16900/41), some (12900/41), some (8900/41), some (8900/41), some (4900/41), some (900/41), some (900/41), none],
     [0, 0, 2, 4, 5, 5, 7, 7, 7, 0]) := by
  rw [rows_succ, rowsB7]
  norm_num [stepRow, relaxFrom, relaxInto, rangeIncl, countUp, cell, gW, energy, gB, nthD,
    setNth, inf, isInf, cAdd, cLt, List.replicate_succ, List.replicate_zero, intToNatLit]

theorem rowsB9 : rows gB none 2 8 9 =
    ([none, none, some (17000/41), some (13000/41), some (13000/41), some (9000/41), some (5000/41), some (1000/41), some (1000/41), none],
     [0, 0, 3, 4, 4, 6, 7, 7, 7, 0]) := by
  rw [rows_succ, rowsB8]
  norm_num [stepRow, relaxFrom, relaxInto, rangeIncl, countUp, cell, gW, energy, gB, nthD,
    setNth, inf, isInf, cAdd, cLt, List.replicate_succ, List.replicate_zero, intToNatLit]

/-- The bestEnd scan of gB, evaluated: ties broken toward smaller x give
column 7, not the ridge column 8. -/
theorem bestEndB : bestEnd gB none 2 8 = (some (1000 / 41), some 7) := by
  norm_num [bestEnd, dv, rowsB9, gHB, rangeIncl, countUp, nthD, cLt, inf]

/-- The seam of gB with ROI [2, 8], evaluated: one column to the left of
the ridge at every row. -/
theorem seamB : findVerticalSeam gB none 2 8 =
    [(3, 0), (4, 1), (4, 2), (5, 3), (5, 4), (6, 5), (6, 6), (7, 7), (7, 8), (7, 9)] := by
  norm_num [findVerticalSeam, bestEndB, colFromEnd, pv, rowsB1, rowsB2, rowsB3, rowsB4,
    rowsB5, rowsB6, rowsB7, rowsB8, rowsB9, gHB, nthD, List.range_succ]

end Seam

namespace Seam

open HueSlicer

/-- Counterexample to C3 as stated: on the S2 grid with ROI [2, 8] the
finder does not return the ridge sequence. -/
theorem C3_counterexample : findVerticalSeam gB none 2 8 ≠ ridgeSeq := by
  rw [seamB]
  simp [ridgeSeq]

/-- C3 (amended).  On the S2 grid with ROI [2, 8] the finder returns
(3,0), (4,1), (4,2), (5,3), (5,4), (6,5), (6,6), (7,7), (7,8), (7,9),
which is the expected ridge sequence shifted one column to the left: at
every row the column left of the ridge carries the same energy 100/41 as
the ridge column itself (its right neighbor is the 50-valued ridge cell),
and both the strict-improvement relaxation and the final argmin break
cost ties toward the smaller column. -/
theorem C3_theorem :
    findVerticalSeam gB none 2 8 =
      [(3, 0), (4, 1), (4, 2), (5, 3), (5, 4), (6, 5), (6, 6), (7, 7), (7, 8), (7, 9)] ∧
      ridgeSeq.map (fun pt => (pt.1 - 1, pt.2)) =
        [(3, 0), (4, 1), (4, 2), (5, 3), (5, 4), (6, 5), (6, 6), (7, 7), (7, 8), (7, 9)] := by
  refine ⟨seamB, ?_⟩
  simp [ridgeSeq]

end Seam

namespace Seam

open HueSlicer

/-- Counterexample to C4 as stated: a 1x1 mask against a 2x2 grid is not
surfaced as a fatal error; setMask leaves the state unchanged (mask still
absent) and the finder keeps running without it. -/
theorem C4_counterexample :
    setMask badMask stA = stA ∧ (setMask badMask stA).mask = none := by
  constructor
  · norm_num [setMask, badMask, stA, gH, gW, nthD]
  · norm_num [setMask, badMask, stA, gH, gW, nthD]

/-- C4 (amended).  A mask whose dimensions mismatch the grid is ignored
with a console warning: setMask returns the receiver unchanged, so the
seam finder continues without the mask rather than failing. -/
theorem C4_theorem (st : SeamState) (mk : Mask)
    (h : mk.length ≠ gH st.data ∨ (nthD mk 0 []).length ≠ gW st.data) :
    setMask mk st = st := by
  unfold setMask
  rw [if_pos h]

/-- Witness for C4 at the concrete 2x2 state and 1x1 mask. -/
theorem C4_witness :
    (badMask.length ≠ gH stA.data ∨ (nthD badMask 0 []).length ≠ gW stA.data) ∧
      setMask badMask stA = stA := by
  have h : badMask.length ≠ gH stA.data ∨ (nthD badMask 0 []).length ≠ gW stA.data := by
    left
    norm_num [badMask, stA, gH]
  exact ⟨h, C4_theorem stA badMask h⟩

end Seam

namespace HeightMap

open HueSlicer

/-- Counterexample to C5 as stated: on gC the pass fills (1,1) from its
original top neighbor 8, and then fills (1,2) from the just-filled (1,1),
though every original 4-neighbor of (1,2) is zero; reading only original
values would leave (1,2) at zero. -/
theorem C5_counterexample :
    nthD gC 5 0 = 0 ∧ nthD gC 7 0 = 0 ∧ nthD gC 2 0 = 0 ∧ nthD gC 10 0 = 0 ∧
      nthD (fillGaps gC 4 3) 6 0 = 8 ∧
      nthD (fillGapsClaim gC 4 3) 6 0 = 0 ∧
      fillGaps gC 4 3 ≠ fillGapsClaim gC 4 3 := by
  norm_num [fillGaps, fillGapsClaim, fillStep, fillStepOrig, gC, rangeIncl, countUp,
    nthD, setNth]

/-- Positivity bookkeeping of the neighbor scan: the sum is nonnegative. -/
theorem sumCount_nonneg (l : List ℚ) :
    0 ≤ (l.foldl (fun p v => if 0 < v then (p.1 + v, p.2 + 1) else p) ((0 : ℚ), (0 : ℕ))).1 := by
  refine foldl_inv (fun p : ℚ × ℕ => 0 ≤ p.1)
    (fun p v => if 0 < v then (p.1 + v, p.2 + 1) else p) l ((0 : ℚ), (0 : ℕ))
    (by norm_num) ?_
  intro a _ st hst
  by_cases hpa : 0 < a
  · simpa [hpa] using add_nonneg hst (le_of_lt hpa)
  · simpa [hpa] using hst

/-- The pass invariant: lengths are preserved, values stay nonnegative,
originally positive cells keep their value, and only originally zero
cells ever change. -/
def FillInv (g cur : List ℚ) : Prop :=
  cur.length = g.length ∧
    ∀ i, (0 < nthD g i 0 → nthD cur i 0 = nthD g i 0) ∧
      0 ≤ nthD cur i 0 ∧ (nthD cur i 0 ≠ nthD g i 0 → nthD g i 0 = 0)

theorem fill_set_pres (g cur : List ℚ) (idx : ℕ) (v : ℚ)
    (hpos : ∀ i, 0 ≤ nthD g i 0) (hzero : nthD cur idx 0 = 0) (hv : 0 ≤ v)
    (hI : FillInv g cur) : FillInv g (setNth cur idx v) := by
  obtain ⟨hlen, hinv⟩ := hI
  refine ⟨by rw [length_setNth, hlen], ?_⟩
  intro i
  by_cases hidx : idx = i
  · subst hidx
    by_cases hin : idx < cur.length
    · have hset : nthD (setNth cur idx v) idx 0 = v := nthD_setNth_self _ _ _ _ hin
      refine ⟨?_, by rw [hset]; exact hv, ?_⟩
      · intro hgpos
        have := (hinv idx).1 hgpos
        rw [hzero] at this
        exact absurd this.symm (ne_of_gt hgpos)
      · intro _
        rcases lt_or_eq_of_le (hpos idx) with hg | hg
        · have := (hinv idx).1 hg
          rw [hzero] at this
          exact absurd this.symm (ne_of_gt hg)
        · exact hg.symm
    · rw [setNth_oob cur idx v (by omega)]
      exact hinv idx
  · have hne : nthD (setNth cur idx v) i 0 = nthD cur i 0 := nthD_setNth_ne _ _ _ _ _ hidx
    rw [hne]
    exact hinv i

theorem fillStep_pres (g : List ℚ) (w : ℕ) (y x : ℕ) (cur : List ℚ)
    (hpos : ∀ i, 0 ≤ nthD g i 0) (hI : FillInv g cur) :
    FillInv g (fillStep w cur y x) := by
  simp only [fillStep]
  split
  · rename_i hzero
    split
    · rename_i hcount
      exact fill_set_pres g cur (y * w + x) _ hpos hzero
        (div_nonneg (sumCount_nonneg _) (Nat.cast_nonneg _)) hI
    · exact hI
  · exact hI

/-- C5 (amended).  The single zero-fill pass runs in place, so a filled
cell can feed the average of a later cell in the same pass (see the
counterexample); what does hold on every nonnegative grid: positive cells
are left unchanged, all values stay nonnegative, and only originally zero
cells are filled (residual zeros allowed). -/
theorem C5_theorem (g : List ℚ) (w h : ℕ) (hpos : ∀ i, 0 ≤ nthD g i 0) :
    (∀ i, 0 < nthD g i 0 → nthD (fillGaps g w h) i 0 = nthD g i 0) ∧
      (∀ i, 0 ≤ nthD (fillGaps g w h) i 0) ∧
      ∀ i, nthD (fillGaps g w h) i 0 ≠ nthD g i 0 → nthD g i 0 = 0 := by
  have hI : FillInv g (fillGaps g w h) := by
    unfold fillGaps
    refine foldl_inv (FillInv g) _ _ _ ?_ ?_
    · exact ⟨rfl, fun i => ⟨fun _ => rfl, hpos i, fun hne => absurd rfl hne⟩⟩
    · intro a _ st hst
      refine foldl_inv (FillInv g) _ _ _ hst ?_
      intro b _ st2 hst2
      exact fillStep_pres g w a b st2 hpos hst2
  exact ⟨fun i => (hI.2 i).1, fun i => (hI.2 i).2.1, fun i => (hI.2 i).2.2⟩

/-- Witness for C5 at the concrete grid gC. -/
theorem C5_witness :
    (∀ i, 0 ≤ nthD gC i 0) ∧
      ((∀ i, 0 < nthD gC i 0 → nthD (fillGaps gC 4 3) i 0 = nthD gC i 0) ∧
        (∀ i, 0 ≤ nthD (fillGaps gC 4 3) i 0) ∧
        ∀ i, nthD (fillGaps gC 4 3) i 0 ≠ nthD gC i 0 → nthD gC i 0 = 0) := by
  have hpos : ∀ i, 0 ≤ nthD gC i 0 := by
    intro i
    rcases lt_or_ge i 12 with hlt | hge
    · interval_cases i <;> norm_num [gC, nthD]
    · rw [nthD_oob _ _ _ (by norm_num [gC]; omega)]
  exact ⟨hpos, C5_theorem gC 4 3 hpos⟩

end HeightMap

namespace Geom

open HueSlicer

theorem sign_pos {q : ℚ} (h : 0 < q) : sign q = 1 := by
  unfold sign
  rw [if_pos h]

theorem sign_neg {q : ℚ} (h : q < 0) : sign q = -1 := by
  unfold sign
  rw [if_neg (not_lt.mpr (le_of_lt h)), if_pos h]

/-- Mid-edge subdivision conserves the total twice-signed XY area. -/
theorem subdivide_area (u : Tri) : area2Sum (subdivideTriangle u) = area2 u := by
  obtain ⟨a, b, c⟩ := u
  simp only [subdivideTriangle, interpolate3D, area2Sum, area2, List.map,
    List.sum_cons, List.sum_nil]
  ring

/-- The edge/line intersection in terms of pointSide values, under the
epsilon guard. -/
theorem intersect_eq (p q : P3) (l1 l2 : P2)
    (heps : ¬ |pointSide p l1 l2 - pointSide q l1 l2| < 1 / 1000000000) :
    intersectEdgeInfiniteLine p q l1 l2 =
      some (interpolate3D p q
        (pointSide p l1 l2 / (pointSide p l1 l2 - pointSide q l1 l2))) := by
  have e1 : (l1.y - l2.y) * p.x + (l2.x - l1.x) * p.y +
      (-(l1.y - l2.y) * l1.x - (l2.x - l1.x) * l1.y) = pointSide p l1 l2 := by
    unfold pointSide
    ring
  have e2 : (l1.y - l2.y) * q.x + (l2.x - l1.x) * q.y +
      (-(l1.y - l2.y) * l1.x - (l2.x - l1.x) * l1.y) = pointSide q l1 l2 := by
    unfold pointSide
    ring
  unfold intersectEdgeInfiniteLine
  simp only [e1, e2]
  rw [if_neg heps]

end Geom

namespace Geom

open HueSlicer

/-- C6 (amended).  For a triangle whose vertices all lie strictly off the
cutting line and whose sign-alternating edges pass the 1e-9 parallel
guard, splitTriangleByLine conserves the total twice-signed XY area, and
mid-edge subdivision conserves it unconditionally.  (A vertex exactly on
the line can lose area: see the counterexample.) -/
theorem C6_theorem (t : Tri) (l1 l2 : P2)
    (h0 : pointSide t.1 l1 l2 ≠ 0) (h1 : pointSide t.2.1 l1 l2 ≠ 0)
    (h2 : pointSide t.2.2 l1 l2 ≠ 0)
    (hA : pointSide t.1 l1 l2 * pointSide t.2.1 l1 l2 < 0 →
      1 / 1000000000 ≤ |pointSide t.1 l1 l2 - pointSide t.2.1 l1 l2|)
    (hB : pointSide t.2.1 l1 l2 * pointSide t.2.2 l1 l2 < 0 →
      1 / 1000000000 ≤ |pointSide t.2.1 l1 l2 - pointSide t.2.2 l1 l2|)
    (hC : pointSide t.2.2 l1 l2 * pointSide t.1 l1 l2 < 0 →
      1 / 1000000000 ≤ |pointSide t.2.2 l1 l2 - pointSide t.1 l1 l2|) :
    area2Sum (splitTriangleByLine t l1 l2).left +
        area2Sum (splitTriangleByLine t l1 l2).right = area2 t ∧
      ∀ u : Tri, area2Sum (subdivideTriangle u) = area2 u := by
  obtain ⟨v0, v1, v2⟩ := t
  simp only at h0 h1 h2 hA hB hC
  refine ⟨?_, subdivide_area⟩
  rcases lt_or_gt_of_ne h0 with hs0 | hs0 <;>
    rcases lt_or_gt_of_ne h1 with hs1 | hs1 <;>
    rcases lt_or_gt_of_ne h2 with hs2 | hs2
  · -- (-, -, -)
    simp only [splitTriangleByLine, sign_neg hs0, sign_neg hs1, sign_neg hs2]
    norm_num [area2Sum, area2]
  · -- (-, -, +)
    have hBb := hB (mul_neg_of_neg_of_pos hs1 hs2)
    have hCb := hC (mul_neg_of_pos_of_neg hs2 hs0)
    have h12 := intersect_eq v1 v2 l1 l2 (not_lt.mpr hBb)
    have h20 := intersect_eq v2 v0 l1 l2 (not_lt.mpr hCb)
    have hd12 : pointSide v1 l1 l2 - pointSide v2 l1 l2 ≠ 0 := by
      intro hcl
      rw [hcl] at hBb
      norm_num at hBb
    have hd20 : pointSide v2 l1 l2 - pointSide v0 l1 l2 ≠ 0 := by
      intro hcl
      rw [hcl] at hCb
      norm_num at hCb
    simp only [splitTriangleByLine, sign_neg hs0, sign_neg hs1, sign_pos hs2]
    norm_num
    simp only [splitStep, List.foldl_cons, List.foldl_nil]
    norm_num [h12, h20, triangulateConvex, area2Sum, area2, interpolate3D]
    field_simp
    ring
  · -- (-, +, -)
    have hAb := hA (mul_neg_of_neg_of_pos hs0 hs1)
    have hBb := hB (mul_neg_of_pos_of_neg hs1 hs2)
    have h01 := intersect_eq v0 v1 l1 l2 (not_lt.mpr hAb)
    have h12 := intersect_eq v1 v2 l1 l2 (not_lt.mpr hBb)
    have hd01 : pointSide v0 l1 l2 - pointSide v1 l1 l2 ≠ 0 := by
      intro hcl
      rw [hcl] at hAb
      norm_num at hAb
    have hd12 : pointSide v1 l1 l2 - pointSide v2 l1 l2 ≠ 0 := by
      intro hcl
      rw [hcl] at hBb
      norm_num at hBb
    simp only [splitTriangleByLine, sign_neg hs0, sign_pos hs1, sign_neg hs2]
    norm_num
    simp only [splitStep, List.foldl_cons, List.foldl_nil]
    norm_num [h01, h12, triangulateConvex, area2Sum, area2, interpolate3D]
    field_simp
    ring
  · -- (-, +, +)
    have hAb := hA (mul_neg_of_neg_of_pos hs0 hs1)
    have hCb := hC (mul_neg_of_pos_of_neg hs2 hs0)
    have h01 := intersect_eq v0 v1 l1 l2 (not_lt.mpr hAb)
    have h20 := intersect_eq v2 v0 l1 l2 (not_lt.mpr hCb)
    have hd01 : pointSide v0 l1 l2 - pointSide v1 l1 l2 ≠ 0 := by
      intro hcl
      rw [hcl] at hAb
      norm_num at hAb
    have hd20 : pointSide v2 l1 l2 - pointSide v0 l1 l2 ≠ 0 := by
      intro hcl
      rw [hcl] at hCb
      norm_num at hCb
    simp only [splitTriangleByLine, sign_neg hs0, sign_pos hs1, sign_pos hs2]
    norm_num
    simp only [splitStep, List.foldl_cons, List.foldl_nil]
    norm_num [h01, h20, triangulateConvex, area2Sum, area2, interpolate3D]
    field_simp
    ring
  · -- (+, -, -)
    have hAb := hA (mul_neg_of_pos_of_neg hs0 hs1)
    have hCb := hC (mul_neg_of_neg_of_pos hs2 hs0)
    have h01 := intersect_eq v0 v1 l1 l2 (not_lt.mpr hAb)
    have h20 := intersect_eq v2 v0 l1 l2 (not_lt.mpr hCb)
    have hd01 : pointSide v0 l1 l2 - pointSide v1 l1 l2 ≠ 0 := by
      intro hcl
      rw [hcl] at hAb
      norm_num at hAb
    have hd20 : pointSide v2 l1 l2 - pointSide v0 l1 l2 ≠ 0 := by
      intro hcl
      rw [hcl] at hCb
      norm_num at hCb
    simp only [splitTriangleByLine, sign_pos hs0, sign_neg hs1, sign_neg hs2]
    norm_num
    simp only [splitStep, List.foldl_cons, List.foldl_nil]
    norm_num [h01, h20, triangulateConvex, area2Sum, area2, interpolate3D]
    field_simp
    ring
  · -- (+, -, +)
    have hAb := hA (mul_neg_of_pos_of_neg hs0 hs1)
    have hBb := hB (mul_neg_of_neg_of_pos hs1 hs2)
    have h01 := intersect_eq v0 v1 l1 l2 (not_lt.mpr hAb)
    have h12 := intersect_eq v1 v2 l1 l2 (not_lt.mpr hBb)
    have hd01 : pointSide v0 l1 l2 - pointSide v1 l1 l2 ≠ 0 := by
      intro hcl
      rw [hcl] at hAb
      norm_num at hAb
    have hd12 : pointSide v1 l1 l2 - pointSide v2 l1 l2 ≠ 0 := by
      intro hcl
      rw [hcl] at hBb
      norm_num at hBb
    simp only [splitTriangleByLine, sign_pos hs0, sign_neg hs1, sign_pos hs2]
    norm_num
    simp only [splitStep, List.foldl_cons, List.foldl_nil]
    norm_num [h01, h12, triangulateConvex, area2Sum, area2, interpolate3D]
    field_simp
    ring
  · -- (+, +, -)
    have hBb := hB (mul_neg_of_pos_of_neg hs1 hs2)
    have hCb := hC (mul_neg_of_neg_of_pos hs2 hs0)
    have h12 := intersect_eq v1 v2 l1 l2 (not_lt.mpr hBb)
    have h20 := intersect_eq v2 v0 l1 l2 (not_lt.mpr hCb)
    have hd12 : pointSide v1 l1 l2 - pointSide v2 l1 l2 ≠ 0 := by
      intro hcl
      rw [hcl] at hBb
      norm_num at hBb
    have hd20 : pointSide v2 l1 l2 - pointSide v0 l1 l2 ≠ 0 := by
      intro hcl
      rw [hcl] at hCb
      norm_num at hCb
    simp only [splitTriangleByLine, sign_pos hs0, sign_pos hs1, sign_neg hs2]
    norm_num
    simp only [splitStep, List.foldl_cons, List.foldl_nil]
    norm_num [h12, h20, triangulateConvex, area2Sum, area2, interpolate3D]
    field_simp
    ring
  · -- (+, +, +)
    simp only [splitTriangleByLine, sign_pos hs0, sign_pos hs1, sign_pos hs2]
    norm_num [area2Sum, area2]

end Geom

namespace Geom

open HueSlicer

/-- Witness for C6 at a concrete straddling triangle and the line x = 0. -/
theorem C6_witness :
    (pointSide (⟨-1, 2, 0⟩ : P3) ⟨0, 0⟩ ⟨0, 1⟩ ≠ 0 ∧
        pointSide (⟨-2, 0, 0⟩ : P3) ⟨0, 0⟩ ⟨0, 1⟩ ≠ 0 ∧
        pointSide (⟨2, 0, 5⟩ : P3) ⟨0, 0⟩ ⟨0, 1⟩ ≠ 0) ∧
      area2Sum (splitTriangleByLine (⟨-1, 2, 0⟩, ⟨-2, 0, 0⟩, ⟨2, 0, 5⟩) ⟨0, 0⟩ ⟨0, 1⟩).left +
          area2Sum (splitTriangleByLine (⟨-1, 2, 0⟩, ⟨-2, 0, 0⟩, ⟨2, 0, 5⟩) ⟨0, 0⟩ ⟨0, 1⟩).right =
        area2 ((⟨-1, 2, 0⟩, ⟨-2, 0, 0⟩, ⟨2, 0, 5⟩) : Tri) := by
  refine ⟨⟨by norm_num [pointSide], by norm_num [pointSide], by norm_num [pointSide]⟩, ?_⟩
  exact (C6_theorem (⟨-1, 2, 0⟩, ⟨-2, 0, 0⟩, ⟨2, 0, 5⟩) ⟨0, 0⟩ ⟨0, 1⟩
    (by norm_num [pointSide]) (by norm_num [pointSide]) (by norm_num [pointSide])
    (by intro hcl; norm_num [pointSide] at hcl)
    (by intro _; norm_num [pointSide])
    (by intro _; norm_num [pointSide])).1

/-- Counterexample to C6 as stated: with a vertex exactly on the line the
split drops the right-hand piece (the ON vertex joins only the left
polygon, leaving a 2-gon on the right), and half the projected area is
lost before cap insertion. -/
theorem C6_counterexample :
    area2Sum (splitTriangleByLine (⟨0, 1, 0⟩, ⟨-1, 0, 0⟩, ⟨1, 0, 0⟩) ⟨0, 0⟩ ⟨0, 1⟩).left +
        area2Sum (splitTriangleByLine (⟨0, 1, 0⟩, ⟨-1, 0, 0⟩, ⟨1, 0, 0⟩) ⟨0, 0⟩ ⟨0, 1⟩).right = 1 ∧
      area2 ((⟨0, 1, 0⟩, ⟨-1, 0, 0⟩, ⟨1, 0, 0⟩) : Tri) = 2 := by
  constructor
  · norm_num [splitTriangleByLine, sign, pointSide, splitStep, intersectEdgeInfiniteLine,
      interpolate3D, triangulateConvex, area2Sum, area2]
  · norm_num [area2]

end Geom

namespace Slicer

open HueSlicer Geom

theorem gbflA : getBestFitLine (⟨1, 10, 0⟩, ⟨2, 10, 0⟩, ⟨1, 10, 5⟩)
    [⟨0, 10⟩, ⟨100, 10⟩] Axis.y = (⟨0, 10⟩, ⟨100, 10⟩) := by
  have habs : ¬(|(197 : ℚ) / 2| < |(3 : ℚ) / 2|) := by
    rw [abs_of_nonneg (by norm_num : (0 : ℚ) ≤ 197 / 2),
      abs_of_nonneg (by norm_num : (0 : ℚ) ≤ 3 / 2)]
    norm_num
  norm_num [getBestFitLine, other, min3, max3, coord2, coord3, closestIdx, countUp,
    nthD, List.filter, if_neg habs]

theorem splitA : splitTriangleByLine (⟨1, 10, 0⟩, ⟨2, 10, 0⟩, ⟨1, 10, 5⟩)
    ⟨0, 10⟩ ⟨100, 10⟩ =
    ⟨[((⟨1, 10, 0⟩ : P3), (⟨2, 10, 0⟩ : P3), (⟨1, 10, 5⟩ : P3))], [], none⟩ := by
  norm_num [splitTriangleByLine, sign, pointSide]

/-- Column preservation of the horizontal slicer: every write it produces
carries the column index it was called with. -/
theorem pHS_col : ∀ (n : ℕ) (t : Tri) (hPaths : List CutPath) (i c : ℕ),
    hPaths.length - i ≤ n →
    ∀ w ∈ processHorizontalSlices t hPaths i c, w.2.1 = c := by
  intro n
  induction n with
  | zero =>
      intro t hPaths i c hn w hw
      rw [processHorizontalSlices] at hw
      rw [dif_pos (by omega)] at hw
      simp at hw
      rw [hw]
  | succ k ih =>
      intro t hPaths i c hn w hw
      rw [processHorizontalSlices] at hw
      by_cases hbase : hPaths.length ≤ i
      · rw [dif_pos hbase] at hw
        simp at hw
        rw [hw]
      · rw [dif_neg hbase] at hw
        simp only [] at hw
        split at hw
        · simp at hw
          rw [hw]
        · split at hw
          · exact ih t hPaths (i + 1) c (by omega) w hw
          · simp only [List.mem_append, List.mem_map, List.mem_flatMap] at hw
            rcases hw with ⟨tri, _, rfl⟩ | ⟨tri, _, hw2⟩
            · rfl
            · exact ih tri hPaths (i + 1) c (by omega) w hw2

/-- With no horizontal paths the horizontal slicer writes straight to
row 0 of its column. -/
theorem pHS_nil (t : Tri) (c : ℕ) :
    processHorizontalSlices t [] 0 c = [(0, c, t)] := by
  rw [processHorizontalSlices]
  rw [dif_pos (by simp)]

/-- With no vertical paths the vertical slicer forwards to column 0. -/
theorem pVS_nil (t : Tri) (hPaths : List CutPath) :
    processVerticalSlices t [] 0 hPaths = processHorizontalSlices t hPaths 0 0 := by
  rw [processVerticalSlices]
  rw [dif_pos (by simp)]

/-- The example cap wall sits exactly on the fitted line (all vertices at
y = 10): the splitter reports it whole on the left, so the slicer pushes
it past path 0 into row 1 of its column. -/
theorem pHS_wallA : processHorizontalSlices wallA [hPathA] 0 0 = [(1, 0, wallA)] := by
  rw [processHorizontalSlices]
  rw [dif_neg (by norm_num)]
  norm_num [nthD, minCoord, maxCoord, coord2, min3, max3, wallA, hPathA, gbflA, splitA]
  rw [processHorizontalSlices]
  rw [dif_pos (by norm_num)]

/-- Same for the reversed copy of the wall: it lands in the same tile. -/
theorem pHS_wallA' :
    processHorizontalSlices (revTri wallA) [hPathA] 0 0 = [(1, 0, revTri wallA)] := by
  have splitA2 : splitTriangleByLine (⟨1, 10, 0⟩, ⟨1, 10, 5⟩, ⟨2, 10, 0⟩)
      ⟨0, 10⟩ ⟨100, 10⟩ =
      ⟨[((⟨1, 10, 0⟩ : P3), (⟨1, 10, 5⟩ : P3), (⟨2, 10, 0⟩ : P3))], [], none⟩ := by
    norm_num [splitTriangleByLine, sign, pointSide]
  have gbflA2 : getBestFitLine (⟨1, 10, 0⟩, ⟨1, 10, 5⟩, ⟨2, 10, 0⟩)
      [⟨0, 10⟩, ⟨100, 10⟩] Axis.y = (⟨0, 10⟩, ⟨100, 10⟩) := by
    have habs : ¬(|(197 : ℚ) / 2| < |(3 : ℚ) / 2|) := by
      rw [abs_of_nonneg (by norm_num : (0 : ℚ) ≤ 197 / 2),
        abs_of_nonneg (by norm_num : (0 : ℚ) ≤ 3 / 2)]
      norm_num
    norm_num [getBestFitLine, other, min3, max3, coord2, coord3, closestIdx, countUp,
      nthD, List.filter, if_neg habs]
  rw [processHorizontalSlices]
  rw [dif_neg (by norm_num)]
  norm_num [nthD, minCoord, maxCoord, coord2, min3, max3, wallA, hPathA, revTri,
    gbflA2, splitA2]
  rw [processHorizontalSlices]
  rw [dif_pos (by norm_num)]

theorem capVertA : capVertWrites [wallA] 5 [] = [(0, 5, wallA), (0, 6, revTri wallA)] := by
  simp [capVertWrites, pHS_nil]

/-- C7 (amended, vertical cuts): every write produced by the vertical-cut
cap pass lands in one of the two tile columns adjacent to the cut: column
pathIdx (the low side, fed the original winding) or column pathIdx + 1
(the high side, fed the reversed winding). -/
theorem C7_theorem (walls : List Tri) (pathIdx : ℕ) (hPaths : List CutPath) :
    ∀ w ∈ capVertWrites walls pathIdx hPaths,
      w.2.1 = pathIdx ∨ w.2.1 = pathIdx + 1 := by
  intro w hw
  simp only [capVertWrites, List.mem_flatMap, List.mem_append] at hw
  rcases hw with ⟨t, _, hw | hw⟩
  · exact Or.inl (pHS_col hPaths.length t hPaths 0 pathIdx (by omega) w hw)
  · exact Or.inr (pHS_col hPaths.length (revTri t) hPaths 0 (pathIdx + 1) (by omega) w hw)

/-- C7 witness: on the concrete wall, the reversed copy's write is in one
of the two columns beside cut 5. -/
theorem C7_witness :
    ((0, 6, revTri wallA) : Write) ∈ capVertWrites [wallA] 5 [] ∧
      (((0, 6, revTri wallA) : Write).2.1 = 5 ∨
        ((0, 6, revTri wallA) : Write).2.1 = 5 + 1) := by
  have hm : ((0, 6, revTri wallA) : Write) ∈ capVertWrites [wallA] 5 [] := by
    rw [capVertA]
    simp
  exact ⟨hm, C7_theorem [wallA] 5 [] _ hm⟩

/-- C7 counterexample (horizontal cuts): for a horizontal cut the far-side
copy is re-sliced from scratch with no row offset, so both copies of the
cap wall land in the same tile (row 1, column 0), and the low-side tile
(row 0) receives nothing. -/
theorem C7_counterexample :
    capHorizWrites [wallA] [] [hPathA] = [(1, 0, wallA), (1, 0, revTri wallA)] := by
  simp [capHorizWrites, pVS_nil, pHS_wallA, pHS_wallA']

end Slicer

namespace Stl

open HueSlicer Geom

theorem cs1 : canonV [] ⟨1, 0, 0⟩ =
    ([(((1000 : ℤ), (0 : ℤ), (0 : ℤ)), ⟨1, 0, 0⟩)], ⟨1, 0, 0⟩) := by
  norm_num [canonV, findKey, keyV, key1, round_eq]

theorem cs2 : canonV [(((1000 : ℤ), (0 : ℤ), (0 : ℤ)), ⟨1, 0, 0⟩)] ⟨0, 1, 0⟩ =
    ([(((1000 : ℤ), (0 : ℤ), (0 : ℤ)), ⟨1, 0, 0⟩),
      (((0 : ℤ), (1000 : ℤ), (0 : ℤ)), ⟨0, 1, 0⟩)], ⟨0, 1, 0⟩) := by
  norm_num [canonV, findKey, keyV, key1, round_eq, List.find?]

theorem cs3 : canonV [(((1000 : ℤ), (0 : ℤ), (0 : ℤ)), ⟨1, 0, 0⟩),
      (((0 : ℤ), (1000 : ℤ), (0 : ℤ)), ⟨0, 1, 0⟩)] ⟨1 / 10000, 0, 0⟩ =
    ([(((1000 : ℤ), (0 : ℤ), (0 : ℤ)), ⟨1, 0, 0⟩),
      (((0 : ℤ), (1000 : ℤ), (0 : ℤ)), ⟨0, 1, 0⟩),
      (((0 : ℤ), (0 : ℤ), (0 : ℤ)), ⟨1 / 10000, 0, 0⟩)], ⟨1 / 10000, 0, 0⟩) := by
  norm_num [canonV, findKey, keyV, key1, round_eq, List.find?]

theorem cs4 : canonV [(((1000 : ℤ), (0 : ℤ), (0 : ℤ)), ⟨1, 0, 0⟩),
      (((0 : ℤ), (1000 : ℤ), (0 : ℤ)), ⟨0, 1, 0⟩),
      (((0 : ℤ), (0 : ℤ), (0 : ℤ)), ⟨1 / 10000, 0, 0⟩)] ⟨1, 0, 0⟩ =
    ([(((1000 : ℤ), (0 : ℤ), (0 : ℤ)), ⟨1, 0, 0⟩),
      (((0 : ℤ), (1000 : ℤ), (0 : ℤ)), ⟨0, 1, 0⟩),
      (((0 : ℤ), (0 : ℤ), (0 : ℤ)), ⟨1 / 10000, 0, 0⟩)], ⟨1, 0, 0⟩) := by
  norm_num [canonV, findKey, keyV, key1, round_eq, List.find?]

theorem cs5 : canonV [(((1000 : ℤ), (0 : ℤ), (0 : ℤ)), ⟨1, 0, 0⟩),
      (((0 : ℤ), (1000 : ℤ), (0 : ℤ)), ⟨0, 1, 0⟩),
      (((0 : ℤ), (0 : ℤ), (0 : ℤ)), ⟨1 / 10000, 0, 0⟩)] ⟨0, 1, 0⟩ =
    ([(((1000 : ℤ), (0 : ℤ), (0 : ℤ)), ⟨1, 0, 0⟩),
      (((0 : ℤ), (1000 : ℤ), (0 : ℤ)), ⟨0, 1, 0⟩),
      (((0 : ℤ), (0 : ℤ), (0 : ℤ)), ⟨1 / 10000, 0, 0⟩)], ⟨0, 1, 0⟩) := by
  norm_num [canonV, findKey, keyV, key1, round_eq, List.find?]

theorem cs6 : canonV [(((1000 : ℤ), (0 : ℤ), (0 : ℤ)), ⟨1, 0, 0⟩),
      (((0 : ℤ), (1000 : ℤ), (0 : ℤ)), ⟨0, 1, 0⟩),
      (((0 : ℤ), (0 : ℤ), (0 : ℤ)), ⟨1 / 10000, 0, 0⟩)] ⟨4 / 10000, 0, 0⟩ =
    ([(((1000 : ℤ), (0 : ℤ), (0 : ℤ)), ⟨1, 0, 0⟩),
      (((0 : ℤ), (1000 : ℤ), (0 : ℤ)), ⟨0, 1, 0⟩),
      (((0 : ℤ), (0 : ℤ), (0 : ℤ)), ⟨1 / 10000, 0, 0⟩)], ⟨1 / 10000, 0, 0⟩) := by
  norm_num [canonV, findKey, keyV, key1, round_eq, List.find?]

theorem loadA : loadStl (2, tsA) =
    [(⟨1, 0, 0⟩, ⟨0, 1, 0⟩, ⟨1 / 10000, 0, 0⟩),
     (⟨1, 0, 0⟩, ⟨0, 1, 0⟩, ⟨1 / 10000, 0, 0⟩)] := by
  simp only [loadStl, tsA, List.take_succ_cons, List.take_zero, List.take_nil, loadVerts,
    cs1, cs2, cs3, cs4, cs5, cs6]

end Stl

namespace Stl

open HueSlicer Geom

/-- With injective keys over a vertex universe V, the dedup map always
stores each vertex under its own key, and canonical lookup is the
identity. -/
theorem canonV_eq (V : List P3) (hinj : ∀ u ∈ V, ∀ v ∈ V, keyV u = keyV v → u = v)
    (mp : List ((ℤ × ℤ × ℤ) × P3)) (hmp : ∀ ent ∈ mp, ent.1 = keyV ent.2 ∧ ent.2 ∈ V)
    (v : P3) (hv : v ∈ V) :
    (canonV mp v).2 = v ∧
      ∀ ent ∈ (canonV mp v).1, ent.1 = keyV ent.2 ∧ ent.2 ∈ V := by
  unfold canonV findKey
  cases hf : mp.find? (fun ent => ent.1 = keyV v) with
  | none =>
      simp only [hf, Option.map_none']
      refine ⟨by simp, ?_⟩
      intro ent hent
      rcases List.mem_append.mp hent with h | h
      · exact hmp ent h
      · simp only [List.mem_singleton] at h
        subst h
        exact ⟨rfl, hv⟩
  | some ent =>
      have hment : ent ∈ mp := List.mem_of_find?_eq_some hf
      have hkey : ent.1 = keyV v := by
        have := List.find?_some hf
        simpa using this
      obtain ⟨he1, he2⟩ := hmp ent hment
      have hev : ent.2 = v := hinj ent.2 he2 v hv (by rw [← he1, hkey])
      simp only [hf, Option.map_some']
      exact ⟨hev, hmp⟩

/-- With injective keys, the load loop reproduces its input triangles. -/
theorem loadVerts_id (V : List P3)
    (hinj : ∀ u ∈ V, ∀ v ∈ V, keyV u = keyV v → u = v) :
    ∀ (rest : List Tri) (mp : List ((ℤ × ℤ × ℤ) × P3)),
      (∀ t ∈ rest, t.1 ∈ V ∧ t.2.1 ∈ V ∧ t.2.2 ∈ V) →
      (∀ ent ∈ mp, ent.1 = keyV ent.2 ∧ ent.2 ∈ V) →
      loadVerts rest mp = rest := by
  intro rest
  induction rest with
  | nil => intro mp _ _; rfl
  | cons t ts ih =>
      intro mp hrest hmp
      obtain ⟨h1, h2, h3⟩ := hrest t (by simp)
      have c1 := canonV_eq V hinj mp hmp t.1 h1
      have c2 := canonV_eq V hinj _ c1.2 t.2.1 h2
      have c3 := canonV_eq V hinj _ c2.2 t.2.2 h3
      simp only [loadVerts]
      rw [c1.1, c2.1, c3.1, ih _ (fun u hu => hrest u (by simp [hu])) c3.2]

/-- C8 (amended): encode-then-decode preserves the triangle list exactly
whenever the toFixed(3) vertex keys are injective over the list's
vertices and the triangle count fits in 32 bits; otherwise vertices
within 0.001 of an earlier one are snapped to it. -/
theorem C8_theorem (ts : List Tri)
    (hinj : ∀ u ∈ verts ts, ∀ v ∈ verts ts, keyV u = keyV v → u = v)
    (hlen : ts.length < 2 ^ 32) :
    roundTrip ts = some ts := by
  unfold roundTrip saveStl
  rw [if_pos hlen]
  unfold loadStl
  simp only [Option.map_some']
  rw [List.take_length]
  rw [loadVerts_id (verts ts) hinj ts [] ?_ (by simp)]
  intro t ht
  refine ⟨?_, ?_, ?_⟩ <;>
    · simp only [verts, List.mem_flatMap]
      exact ⟨t, ht, by simp⟩

/-- C8 witness: a concrete single-triangle list with injective keys
round-trips exactly. -/
theorem C8_witness :
    tsB.length < 2 ^ 32 ∧ roundTrip tsB = some tsB := by
  have hinj : ∀ u ∈ verts tsB, ∀ v ∈ verts tsB, keyV u = keyV v → u = v := by
    intro u hu v hv hk
    simp only [tsB, verts, List.flatMap_cons, List.flatMap_nil, List.append_nil,
      List.mem_cons, List.not_mem_nil, or_false] at hu hv
    have k1 : keyV ⟨1, 0, 0⟩ = (1000, 0, 0) := by norm_num [keyV, key1, round_eq]
    have k2 : keyV ⟨0, 1, 0⟩ = (0, 1000, 0) := by norm_num [keyV, key1, round_eq]
    have k3 : keyV ⟨0, 0, 1⟩ = (0, 0, 1000) := by norm_num [keyV, key1, round_eq]
    rcases hu with rfl | rfl | rfl <;> rcases hv with rfl | rfl | rfl <;>
      first
      | rfl
      | (simp only [k1, k2, k3, Prod.mk.injEq] at hk
         norm_num at hk)
  exact ⟨by norm_num [tsB], C8_theorem tsB hinj (by norm_num [tsB])⟩

/-- C8 counterexample: two triangles whose third vertices differ by
0.0003 collide on the rounded key, so decode snaps the second to the
first and the round trip is not the identity. -/
theorem C8_counterexample : roundTrip tsA ≠ some tsA := by
  have hsave : saveStl tsA = some (2, tsA) := by
    unfold saveStl
    rw [if_pos (by norm_num [tsA])]
    norm_num [tsA]
  rw [roundTrip, hsave]
  simp only [Option.map_some']
  rw [loadA]
  intro h
  rw [Option.some_inj] at h
  simp only [tsA, List.cons.injEq] at h
  have h3 := h.2.1
  simp only [Prod.mk.injEq, P3.mk.injEq] at h3
  have : (1 : ℚ) / 10000 = 4 / 10000 := h3.2.2.1
  norm_num at this

end Stl

namespace Trace

open HueSlicer Geom

/-- Shape of the stitch loop: whatever it appends comes from fragments of
the list, each contributing the tail of its oriented point sequence. -/
theorem stitchAux_shape (frags : List Frag) : ∀ (n : ℕ) (remaining : List ℕ) (cur : List P2),
    remaining.length ≤ n →
    ∃ idxs : List ℕ, (∀ i ∈ idxs, i ∈ remaining) ∧
      stitchAux frags remaining cur =
        cur ++ idxs.flatMap (fun i => (oriented (nthD frags i ⟨[], false⟩)).drop 1) := by
  intro n
  induction n with
  | zero =>
      intro remaining cur hn
      have hr : remaining = [] := by
        cases remaining with
        | nil => rfl
        | cons a t => simp at hn
      subst hr
      refine ⟨[], by simp, ?_⟩
      rw [stitchAux, dif_pos rfl]
      simp
  | succ k ih =>
      intro remaining cur hn
      rw [stitchAux]
      by_cases hr : remaining = []
      · rw [dif_pos hr]
        exact ⟨[], by simp, by simp⟩
      · rw [dif_neg hr]
        split
        · exact ⟨[], by simp, by simp⟩
        · rename_i idx hf
          have hmem : idx ∈ remaining := by
            unfold findNext at hf
            exact List.mem_of_find?_eq_some hf
          have hlen : (remaining.erase idx).length ≤ k := by
            have h1 := List.length_erase_of_mem hmem
            have h2 : 0 < remaining.length := List.length_pos.mpr hr
            omega
          obtain ⟨idxs, hsub, heq⟩ := ih (remaining.erase idx)
            (cur ++ (oriented (nthD frags idx ⟨[], false⟩)).drop 1) hlen
          refine ⟨idx :: idxs, ?_, ?_⟩
          · intro i hi
            rcases List.mem_cons.mp hi with rfl | hi2
            · exact hmem
            · exact List.mem_of_mem_erase (hsub i hi2)
          · rw [heq]
            simp [List.flatMap_cons, List.append_assoc]

/-- C9 (amended): after the one-shot simplification pass, a macro edge
flanked by two regions contributes the same simplified point sequence to
both fragment lists — unreversed for the left region, flagged reversed
for the right, the two oriented sequences exact reverses — and every
polygon the stitcher returns for a nonempty fragment list is its first
fragment's oriented points followed by tails of oriented fragments of the
same list, so a shared stretch that both stitched polygons include is
literally the same simplified sequence up to reversal. -/
theorem C9_theorem (edges : List MEdge) (e : MEdge)
    (he : e ∈ simplifyEdges edges) (hl : 0 ≤ e.left) (hr : 0 ≤ e.right) :
    Frag.mk e.points false ∈ fragsFor (simplifyEdges edges) e.left ∧
      Frag.mk e.points true ∈ fragsFor (simplifyEdges edges) e.right ∧
      oriented (Frag.mk e.points true) = (oriented (Frag.mk e.points false)).reverse ∧
      (∃ e0 ∈ edges, e.points = rdp e0.points) ∧
      ∀ (f0 : Frag) (rest : List Frag),
        ∃ idxs : List ℕ, (∀ i ∈ idxs, 1 ≤ i ∧ i < (f0 :: rest).length) ∧
          polyFor (f0 :: rest) = oriented f0 ++
            idxs.flatMap (fun i => (oriented (nthD (f0 :: rest) i ⟨[], false⟩)).drop 1) := by
  refine ⟨?_, ?_, ?_, ?_, ?_⟩
  · simp only [fragsFor, List.mem_flatMap]
    exact ⟨e, he, by simp [hl]⟩
  · simp only [fragsFor, List.mem_flatMap]
    exact ⟨e, he, by simp [hr]⟩
  · simp [oriented]
  · simp only [simplifyEdges, List.mem_map] at he
    obtain ⟨e0, he0, heq⟩ := he
    exact ⟨e0, he0, by rw [← heq]⟩
  · intro f0 rest
    obtain ⟨idxs, hsub, heq⟩ := stitchAux_shape (f0 :: rest)
      (countUp ((f0 :: rest).length - 1) 1).length
      (countUp ((f0 :: rest).length - 1) 1) (oriented f0) (le_refl _)
    refine ⟨idxs, ?_, ?_⟩
    · intro i hi
      have := countUp_mem (hsub i hi)
      simp only [List.length_cons] at this ⊢
      omega
    · rw [polyFor]
      exact heq

/-- C9 witness on the concrete two-point edge between regions 1 and 2:
its fragment list for region 1 is the single unreversed fragment, whose
stitched polygon is the fragment itself. -/
theorem C9_witness :
    eA ∈ simplifyEdges [eA] ∧ 0 ≤ eA.left ∧ 0 ≤ eA.right ∧
      (Frag.mk eA.points false ∈ fragsFor (simplifyEdges [eA]) eA.left ∧
        Frag.mk eA.points true ∈ fragsFor (simplifyEdges [eA]) eA.right ∧
        oriented (Frag.mk eA.points true) =
          (oriented (Frag.mk eA.points false)).reverse ∧
        (∃ e0 ∈ [eA], eA.points = rdp e0.points) ∧
        ∀ (f0 : Frag) (rest : List Frag),
          ∃ idxs : List ℕ, (∀ i ∈ idxs, 1 ≤ i ∧ i < (f0 :: rest).length) ∧
            polyFor (f0 :: rest) = oriented f0 ++
              idxs.flatMap (fun i =>
                (oriented (nthD (f0 :: rest) i ⟨[], false⟩)).drop 1)) := by
  have hrdp : rdp [(⟨0, 0⟩ : P2), ⟨10, 0⟩] = [⟨0, 0⟩, ⟨10, 0⟩] := by
    rw [rdp]
    rw [dif_pos (by norm_num)]
  have he : eA ∈ simplifyEdges [eA] := by
    simp [simplifyEdges, eA, hrdp]
  exact ⟨he, by norm_num [eA], by norm_num [eA],
    C9_theorem [eA] eA he (by norm_num [eA]) (by norm_num [eA])⟩

/-- C9 counterexample: on the 3x3 grid whose center cell is region 2
inside region 1, every boundary point has degree 2, so the node set is
empty, traceMacroEdges emits no macro edge, and region 2 — adjacent to
region 1 — receives no boundary fragments and no polygon at all. -/
theorem C9_counterexample :
    nodesOf (buildGraph labels3 3 3).1 (buildGraph labels3 3 3).2 = [] ∧
      traceMacroEdges (buildGraph labels3 3 3).1
        (nodesOf (buildGraph labels3 3 3).1 (buildGraph labels3 3 3).2) 3 = [] ∧
      fragsFor (simplifyEdges (traceMacroEdges (buildGraph labels3 3 3).1
        (nodesOf (buildGraph labels3 3 3).1 (buildGraph labels3 3 3).2) 3)) 2 = [] ∧
      polyFor (fragsFor (simplifyEdges (traceMacroEdges (buildGraph labels3 3 3).1
        (nodesOf (buildGraph labels3 3 3).1 (buildGraph labels3 3 3).2) 3)) 2) = [] ∧
      nthD labels3 3 0 = 1 ∧ nthD labels3 4 0 = 2 := by
  refine ⟨by decide, by decide, by decide, by decide, by decide, by decide⟩

end Trace

namespace Wshed

open HueSlicer

theorem pickMin_none {pq : PQ} (h : pickMin pq = none) : pq = [] := by
  cases pq with
  | nil => rfl
  | cons e rest =>
      exfalso
      rw [pickMin] at h
      rcases hrec : pickMin rest with _ | pr <;> rw [hrec] at h
      · simp at h
      · by_cases hle : e.2 ≤ pr.1.2 <;> simp [hle] at h

theorem pickMin_perm : ∀ {pq : PQ} {e : ℕ × ℚ} {rest : PQ},
    pickMin pq = some (e, rest) → pq.Perm (e :: rest) := by
  intro pq
  induction pq with
  | nil => intro e rest h; simp [pickMin] at h
  | cons a r ih =>
      intro e rest h
      rw [pickMin] at h
      rcases hrec : pickMin r with _ | pr <;> simp only [hrec] at h
      · have hr : r = [] := pickMin_none hrec
        subst hr
        rw [Option.some_inj, Prod.ext_iff] at h
        obtain ⟨h1, h2⟩ := h
        simp only at h1 h2
        subst h1
        subst h2
        exact List.Perm.refl _
      · by_cases hle : a.2 ≤ pr.1.2
        · rw [if_pos hle, Option.some_inj, Prod.ext_iff] at h
          obtain ⟨h1, h2⟩ := h
          simp only at h1 h2
          subst h1
          subst h2
          exact List.Perm.refl _
        · rw [if_neg hle, Option.some_inj, Prod.ext_iff] at h
          obtain ⟨h1, h2⟩ := h
          simp only at h1 h2
          subst h1
          subst h2
          exact ((ih hrec).cons a).trans (List.Perm.swap _ _ _)

theorem filter_length_flip {L : List ℕ} (hnd : L.Nodup) (i : ℕ) (hi : i ∈ L)
    {f g : ℕ → Bool} (hfi : f i = true) (hgi : g i = false)
    (hfg : ∀ j ∈ L, j ≠ i → f j = g j) :
    (L.filter g).length + 1 = (L.filter f).length := by
  induction L with
  | nil => simp at hi
  | cons a t ih =>
      rcases List.mem_cons.mp hi with heq | hit
      · have hnt : a ∉ t := (List.nodup_cons.mp hnd).1
        have hsame : t.filter f = t.filter g := by
          apply List.filter_congr
          intro j hj
          exact hfg j (List.mem_cons_of_mem _ hj) (fun hji => hnt (heq ▸ hji ▸ hj))
        have hfa : f a = true := heq ▸ hfi
        have hga : g a = false := heq ▸ hgi
        rw [List.filter_cons, List.filter_cons, if_pos hfa, if_neg (by simp [hga]), hsame]
        simp
      · have hai : a ≠ i := fun hx => (List.nodup_cons.mp hnd).1 (hx ▸ hit)
        have hfa := hfg a (by simp) hai
        have hrec := ih (List.nodup_cons.mp hnd).2 hit
          (fun j hj hji => hfg j (List.mem_cons_of_mem _ hj) hji)
        rw [List.filter_cons, List.filter_cons]
        by_cases hg : g a = true
        · rw [if_pos hg, if_pos (by rw [hfa, hg])]
          simp only [List.length_cons]
          omega
        · have hg2 : g a = false := by simpa using hg
          rw [if_neg (by simp [hg2]), if_neg (by simp [hfa, hg2])]
          exact hrec

theorem zc_setNth {w h : ℕ} {labels : List ℤ} {i : ℕ} {v : ℤ}
    (hi : i < w * h) (hil : i < labels.length)
    (hz : nthD labels i 0 = 0) (hv : v ≠ 0) :
    zc (w * h) (setNth labels i v) + 1 = zc (w * h) labels := by
  unfold zc
  exact filter_length_flip (countUp_nodup _ _) i (mem_countUp (by omega) (by omega))
    (by simp [hz]) (by simp [nthD_setNth_self _ _ _ _ hil, hv])
    (fun j hj hji => by simp [nthD_setNth_ne _ _ _ _ _ (fun hh => hji hh.symm)])



theorem nbrCell_lt {w h i : ℕ} {o : ℤ} {j : ℕ} (hj : nbrCell w h i o = some j) :
    j < w * h := by
  simp only [nbrCell] at hj
  split at hj
  · exact absurd hj (by simp)
  · rename_i hcond
    push_neg at hcond
    rw [Option.some_inj] at hj
    obtain ⟨h1, h2, h3, h4⟩ := hcond
    subst hj
    have ha : (nbrXY w i o).2.toNat + 1 ≤ h := by omega
    calc (nbrXY w i o).2.toNat * w + (nbrXY w i o).1.toNat
        < (nbrXY w i o).2.toNat * w + w := by omega
      _ = ((nbrXY w i o).2.toNat + 1) * w := by ring
      _ ≤ h * w := Nat.mul_le_mul_right w ha
      _ = w * h := Nat.mul_comm h w

theorem nbrStep_facts (gm : List ℚ) (w h c : ℕ) (cl : ℤ) (hcl : 0 < cl)
    (st : List ℤ × PQ) (o : ℤ)
    (hlen : st.1.length = w * h) (hP : POk st.1) (hQ : QOk w h st.1 st.2) :
    (nbrStep gm w h c cl st o).1.length = w * h ∧
      POk (nbrStep gm w h c cl st o).1 ∧
      QOk w h (nbrStep gm w h c cl st o).1 (nbrStep gm w h c cl st o).2 ∧
      (∀ i, nthD st.1 i 0 ≠ 0 → nthD (nbrStep gm w h c cl st o).1 i 0 = nthD st.1 i 0) ∧
      (∀ e ∈ st.2, e ∈ (nbrStep gm w h c cl st o).2) ∧
      (∀ i, nthD (nbrStep gm w h c cl st o).1 i 0 ≠ 0 →
        nthD st.1 i 0 ≠ 0 ∨ ∃ q, (i, q) ∈ (nbrStep gm w h c cl st o).2) ∧
      (∀ j, nbrCell w h c o = some j → nthD (nbrStep gm w h c cl st o).1 j 0 ≠ 0) ∧
      2 * zc (w * h) (nbrStep gm w h c cl st o).1 + (nbrStep gm w h c cl st o).2.length ≤
        2 * zc (w * h) st.1 + st.2.length := by
  cases hnb : nbrCell w h c o with
  | none =>
      have hst : nbrStep gm w h c cl st o = st := by
        simp only [nbrStep, hnb]
      rw [hst]
      refine ⟨hlen, hP, hQ, fun i _ => rfl, fun e he => he, fun i hi => Or.inl hi,
        ?_, le_refl _⟩
      intro j hj
      exact absurd hj (by simp)
  | some nIdx =>
      by_cases hz : nthD st.1 nIdx 0 = 0
      · have hst : nbrStep gm w h c cl st o =
            (setNth st.1 nIdx cl, pqEnqueue st.2 nIdx (nthD gm nIdx 0)) := by
          simp only [nbrStep, hnb, if_pos hz]
        rw [hst]
        have hn : nIdx < w * h := nbrCell_lt hnb
        have hnl : nIdx < st.1.length := by omega
        have hval : nthD (setNth st.1 nIdx cl) nIdx 0 = cl :=
          nthD_setNth_self _ _ _ _ hnl
        refine ⟨?_, ?_, ?_, ?_, ?_, ?_, ?_, ?_⟩
        · rw [show (setNth st.1 nIdx cl, pqEnqueue st.2 nIdx (nthD gm nIdx 0)).1 =
            setNth st.1 nIdx cl from rfl, length_setNth, hlen]
        · intro i
          by_cases hie : i = nIdx
          · subst hie
            rw [show (setNth st.1 i cl, pqEnqueue st.2 i (nthD gm i 0)).1 =
              setNth st.1 i cl from rfl, hval]
            exact Or.inr hcl
          · dsimp only
            rw [nthD_setNth_ne _ _ _ _ _ (fun hx => hie hx.symm)]
            exact hP i
        · intro e he
          dsimp only at he ⊢
          rcases List.mem_append.mp he with hold | hnew
          · obtain ⟨he1, he2⟩ := hQ e hold
            refine ⟨he1, ?_⟩
            by_cases hie : e.1 = nIdx
            · rw [hie, hval]
              omega
            · rw [nthD_setNth_ne _ _ _ _ _ (fun hx => hie hx.symm)]
              exact he2
          · simp only [List.mem_singleton] at hnew
            subst hnew
            refine ⟨hn, ?_⟩
            rw [hval]
            omega
        · intro i hi
          have hie : i ≠ nIdx := fun hx => hi (hx ▸ hz)
          dsimp only
          exact nthD_setNth_ne _ _ _ _ _ (fun hx => hie hx.symm)
        · intro e he
          exact List.mem_append_left _ he
        · intro i hi
          dsimp only at hi
          by_cases hie : i = nIdx
          · subst hie
            exact Or.inr ⟨nthD gm i 0, List.mem_append_right _ (by simp)⟩
          · rw [nthD_setNth_ne _ _ _ _ _ (fun hx => hie hx.symm)] at hi
            exact Or.inl hi
        · intro j hj
          obtain rfl : nIdx = j := Option.some_inj.mp hj
          dsimp only
          rw [hval]
          omega
        · have hzc := zc_setNth hn hnl hz (by omega : cl ≠ 0)
          dsimp only
          simp only [pqEnqueue, List.length_append, List.length_singleton]
          omega
      · have hst : nbrStep gm w h c cl st o = st := by
          simp only [nbrStep, hnb, if_neg hz]
        rw [hst]
        refine ⟨hlen, hP, hQ, fun i _ => rfl, fun e he => he, fun i hi => Or.inl hi,
          ?_, le_refl _⟩
        intro j hj
        obtain rfl : nIdx = j := Option.some_inj.mp hj
        exact hz

theorem flood_iter (gm : List ℚ) (w h : ℕ) (labels : List ℤ) (pq : PQ)
    (hlen : labels.length = w * h) (hP : POk labels) (hQ : QOk w h labels pq)
    (hC : COk w h labels pq) {c : ℕ} {p : ℚ} {pq1 : PQ}
    (hpick : pickMin pq = some ((c, p), pq1)) (st : List ℤ × PQ)
    (hst : st = (offs w).foldl (nbrStep gm w h c (nthD labels c 0)) (labels, pq1)) :
    st.1.length = w * h ∧ POk st.1 ∧ QOk w h st.1 st.2 ∧ COk w h st.1 st.2 ∧
      (∀ i, nthD labels i 0 ≠ 0 → nthD st.1 i 0 ≠ 0) ∧
      2 * zc (w * h) st.1 + st.2.length + 1 ≤ 2 * zc (w * h) labels + pq.length := by
  have hperm := pickMin_perm hpick
  have hcmem : ((c, p) : ℕ × ℚ) ∈ pq := hperm.mem_iff.mpr (by simp)
  obtain ⟨hcw, hcnz⟩ := hQ _ hcmem
  have hcl : 0 < nthD labels c 0 := by
    rcases hP c with h0 | hpos
    · exact absurd h0 hcnz
    · exact hpos
  have hQ1 : QOk w h labels pq1 :=
    fun e he => hQ e (hperm.mem_iff.mpr (List.mem_cons_of_mem _ he))
  have hlenq : pq.length = pq1.length + 1 := by
    rw [hperm.length_eq]
    rfl
  have hoffs : (offs w).foldl (nbrStep gm w h c (nthD labels c 0)) (labels, pq1) =
      nbrStep gm w h c (nthD labels c 0)
        (nbrStep gm w h c (nthD labels c 0)
          (nbrStep gm w h c (nthD labels c 0)
            (nbrStep gm w h c (nthD labels c 0) (labels, pq1) (-1)) 1) (-(w : ℤ))) (w : ℤ) := by
    simp only [offs, List.foldl_cons, List.foldl_nil]
  obtain ⟨L1, P1, Q1, pres1, qm1, nq1, nb1, m1⟩ :=
    nbrStep_facts gm w h c (nthD labels c 0) hcl (labels, pq1) (-1) hlen hP hQ1
  dsimp only at m1
  obtain ⟨L2, P2, Q2, pres2, qm2, nq2, nb2, m2⟩ :=
    nbrStep_facts gm w h c (nthD labels c 0) hcl
      (nbrStep gm w h c (nthD labels c 0) (labels, pq1) (-1)) 1 L1 P1 Q1
  obtain ⟨L3, P3, Q3, pres3, qm3, nq3, nb3, m3⟩ :=
    nbrStep_facts gm w h c (nthD labels c 0) hcl
      (nbrStep gm w h c (nthD labels c 0)
        (nbrStep gm w h c (nthD labels c 0) (labels, pq1) (-1)) 1) (-(w : ℤ)) L2 P2 Q2
  obtain ⟨L4, P4, Q4, pres4, qm4, nq4, nb4, m4⟩ :=
    nbrStep_facts gm w h c (nthD labels c 0) hcl
      (nbrStep gm w h c (nthD labels c 0)
        (nbrStep gm w h c (nthD labels c 0)
          (nbrStep gm w h c (nthD labels c 0) (labels, pq1) (-1)) 1) (-(w : ℤ))) (w : ℤ)
      L3 P3 Q3
  rw [hoffs] at hst
  subst hst
  have keep : ∀ i, nthD labels i 0 ≠ 0 →
      nthD (nbrStep gm w h c (nthD labels c 0)
        (nbrStep gm w h c (nthD labels c 0)
          (nbrStep gm w h c (nthD labels c 0)
            (nbrStep gm w h c (nthD labels c 0) (labels, pq1) (-1)) 1) (-(w : ℤ))) (w : ℤ)).1
        i 0 ≠ 0 := by
    intro i hi
    have e1 := pres1 i hi
    have hi1 : nthD (nbrStep gm w h c (nthD labels c 0) (labels, pq1) (-1)).1 i 0 ≠ 0 := by
      rw [e1]; exact hi
    have e2 := pres2 i hi1
    have hi2 := e2 ▸ hi1
    have e3 := pres3 i hi2
    have hi3 := e3 ▸ hi2
    have e4 := pres4 i hi3
    exact e4 ▸ hi3
  have keep2 : ∀ i, nthD (nbrStep gm w h c (nthD labels c 0) (labels, pq1) (-1)).1 i 0 ≠ 0 →
      nthD (nbrStep gm w h c (nthD labels c 0)
        (nbrStep gm w h c (nthD labels c 0)
          (nbrStep gm w h c (nthD labels c 0)
            (nbrStep gm w h c (nthD labels c 0) (labels, pq1) (-1)) 1) (-(w : ℤ))) (w : ℤ)).1
        i 0 ≠ 0 := by
    intro i hi1
    have e2 := pres2 i hi1
    have hi2 := e2 ▸ hi1
    have e3 := pres3 i hi2
    have hi3 := e3 ▸ hi2
    have e4 := pres4 i hi3
    exact e4 ▸ hi3
  have keep3 : ∀ i, nthD (nbrStep gm w h c (nthD labels c 0)
        (nbrStep gm w h c (nthD labels c 0) (labels, pq1) (-1)) 1).1 i 0 ≠ 0 →
      nthD (nbrStep gm w h c (nthD labels c 0)
        (nbrStep gm w h c (nthD labels c 0)
          (nbrStep gm w h c (nthD labels c 0)
            (nbrStep gm w h c (nthD labels c 0) (labels, pq1) (-1)) 1) (-(w : ℤ))) (w : ℤ)).1
        i 0 ≠ 0 := by
    intro i hi2
    have e3 := pres3 i hi2
    have hi3 := e3 ▸ hi2
    have e4 := pres4 i hi3
    exact e4 ▸ hi3
  have keep4 : ∀ i, nthD (nbrStep gm w h c (nthD labels c 0)
        (nbrStep gm w h c (nthD labels c 0)
          (nbrStep gm w h c (nthD labels c 0) (labels, pq1) (-1)) 1) (-(w : ℤ))).1 i 0 ≠ 0 →
      nthD (nbrStep gm w h c (nthD labels c 0)
        (nbrStep gm w h c (nthD labels c 0)
          (nbrStep gm w h c (nthD labels c 0)
            (nbrStep gm w h c (nthD labels c 0) (labels, pq1) (-1)) 1) (-(w : ℤ))) (w : ℤ)).1
        i 0 ≠ 0 := by
    intro i hi3
    have e4 := pres4 i hi3
    exact e4 ▸ hi3
  refine ⟨L4, P4, Q4, ?_, keep, ?_⟩
  · intro i hiw hlab
    by_cases hold : nthD labels i 0 ≠ 0
    · rcases hC i hiw hold with ⟨q, hq⟩ | hclosed
      · rcases List.mem_cons.mp (hperm.mem_iff.mp hq) with hhead | htail
        · have hic : i = c := by
            have := congrArg Prod.fst hhead
            simpa using this
          subst hic
          refine Or.inr ?_
          intro o ho j hj
          simp only [offs, List.mem_cons, List.not_mem_nil, or_false] at ho
          rcases ho with rfl | rfl | rfl | rfl
          · exact keep2 j (nb1 j hj)
          · exact keep3 j (nb2 j hj)
          · exact keep4 j (nb3 j hj)
          · exact nb4 j hj
        · exact Or.inl ⟨q, qm4 _ (qm3 _ (qm2 _ (qm1 _ htail)))⟩
      · refine Or.inr ?_
        intro o ho j hj
        exact keep j (hclosed o ho j hj)
    · push_neg at hold
      rcases nq4 i hlab with h3 | hq4
      · rcases nq3 i h3 with h2 | hq3
        · rcases nq2 i h2 with h1 | hq2
          · rcases nq1 i h1 with h0 | hq1
            · exact absurd h0 (by simp [hold])
            · obtain ⟨q, hq⟩ := hq1
              exact Or.inl ⟨q, qm4 _ (qm3 _ (qm2 _ hq))⟩
          · obtain ⟨q, hq⟩ := hq2
            exact Or.inl ⟨q, qm4 _ (qm3 _ hq)⟩
        · obtain ⟨q, hq⟩ := hq3
          exact Or.inl ⟨q, qm4 _ hq⟩
      · exact Or.inl hq4
  · omega

theorem flood_main (gm : List ℚ) (w h : ℕ) :
    ∀ (fuel : ℕ) (labels : List ℤ) (pq : PQ),
      labels.length = w * h → POk labels → QOk w h labels pq → COk w h labels pq →
      2 * zc (w * h) labels + pq.length < fuel →
      (∀ i, nthD labels i 0 ≠ 0 → nthD (floodFuel gm w h fuel labels pq) i 0 ≠ 0) ∧
        POk (floodFuel gm w h fuel labels pq) ∧
        (∀ i < w * h, nthD (floodFuel gm w h fuel labels pq) i 0 ≠ 0 →
          ∀ o ∈ offs w, ∀ j, nbrCell w h i o = some j →
            nthD (floodFuel gm w h fuel labels pq) j 0 ≠ 0) := by
  intro fuel
  induction fuel with
  | zero =>
      intro labels pq _ _ _ _ hm
      omega
  | succ f ih =>
      intro labels pq hlen hP hQ hC hm
      cases hpick : pickMin pq with
      | none =>
          have hpq : pq = [] := pickMin_none hpick
          subst hpq
          have hR : floodFuel gm w h (f + 1) labels [] = labels := by
            simp only [floodFuel, pickMin]
          rw [hR]
          refine ⟨fun i hi => hi, hP, ?_⟩
          intro i hiw hi o ho j hj
          rcases hC i hiw hi with ⟨q, hq⟩ | hcl
          · simp at hq
          · exact hcl o ho j hj
      | some pr =>
          obtain ⟨⟨c, p⟩, pq1⟩ := pr
          have hR : floodFuel gm w h (f + 1) labels pq =
              floodFuel gm w h f
                ((offs w).foldl (nbrStep gm w h c (nthD labels c 0)) (labels, pq1)).1
                ((offs w).foldl (nbrStep gm w h c (nthD labels c 0)) (labels, pq1)).2 := by
            simp only [floodFuel, hpick]
          obtain ⟨L4, P4, Q4, C4, keep, hmeas⟩ :=
            flood_iter gm w h labels pq hlen hP hQ hC hpick
              ((offs w).foldl (nbrStep gm w h c (nthD labels c 0)) (labels, pq1)) rfl
          have hless : 2 * zc (w * h)
                ((offs w).foldl (nbrStep gm w h c (nthD labels c 0)) (labels, pq1)).1 +
              ((offs w).foldl (nbrStep gm w h c (nthD labels c 0)) (labels, pq1)).2.length
              < f := by
            omega
          obtain ⟨keep2, P5, C5⟩ := ih _ _ L4 P4 Q4 C4 hless
          rw [hR]
          exact ⟨fun i hi => keep2 i (keep i hi), P5, C5⟩

theorem idx_lt {w h x y : ℕ} (hx : x < w) (hy : y < h) : y * w + x < w * h := by
  calc y * w + x < y * w + w := by omega
    _ = (y + 1) * w := by ring
    _ ≤ h * w := Nat.mul_le_mul_right w (by omega)
    _ = w * h := Nat.mul_comm h w

theorem idx_mod {w : ℕ} (x y : ℕ) (hx : x < w) : (y * w + x) % w = x := by
  rw [Nat.add_comm, Nat.add_mul_mod_self_right]
  exact Nat.mod_eq_of_lt hx

theorem idx_div {w : ℕ} (x y : ℕ) (hx : x < w) : (y * w + x) / w = y := by
  rw [Nat.add_comm, Nat.add_mul_div_right _ _ (by omega : 0 < w)]
  rw [Nat.div_eq_of_lt hx]
  omega

theorem nbrCell_left {w h x y : ℕ} (hx : x < w) (hy : y < h) (hx1 : 1 ≤ x) :
    nbrCell w h (y * w + x) (-1) = some (y * w + (x - 1)) := by
  have hxy : nbrXY w (y * w + x) (-1) = ((x : ℤ) - 1, (y : ℤ)) := by
    simp only [nbrXY, idx_mod x y hx, idx_div x y hx, eq_self_iff_true, if_true]
  simp only [nbrCell, hxy]
  rw [if_neg (by omega)]
  rw [show ((y : ℤ)).toNat = y from by omega,
    show ((x : ℤ) - 1).toNat = x - 1 from by omega]

theorem nbrCell_right {w h x y : ℕ} (hx : x < w) (hy : y < h) (hxr : x + 1 < w) :
    nbrCell w h (y * w + x) 1 = some (y * w + (x + 1)) := by
  have hxy : nbrXY w (y * w + x) 1 = ((x : ℤ) + 1, (y : ℤ)) := by
    simp only [nbrXY, idx_mod x y hx, idx_div x y hx,
      show ¬((1 : ℤ) = -1) from by omega, if_false, eq_self_iff_true, if_true]
  simp only [nbrCell, hxy]
  rw [if_neg (by omega)]
  rw [show ((y : ℤ)).toNat = y from by omega,
    show ((x : ℤ) + 1).toNat = x + 1 from by omega]

theorem nbrCell_up {w h x y : ℕ} (hw : 2 ≤ w) (hx : x < w) (hy : y < h) (hy1 : 1 ≤ y) :
    nbrCell w h (y * w + x) (-(w : ℤ)) = some ((y - 1) * w + x) := by
  have hxy : nbrXY w (y * w + x) (-(w : ℤ)) = ((x : ℤ), (y : ℤ) - 1) := by
    simp only [nbrXY, idx_mod x y hx, idx_div x y hx,
      show ¬(-(w : ℤ) = -1) from by omega, show ¬(-(w : ℤ) = 1) from by omega,
      if_false, eq_self_iff_true, if_true]
  simp only [nbrCell, hxy]
  rw [if_neg (by omega)]
  rw [show ((y : ℤ) - 1).toNat = y - 1 from by omega,
    show ((x : ℤ)).toNat = x from by omega]

theorem nbrCell_down {w h x y : ℕ} (hw : 2 ≤ w) (hx : x < w) (hy : y < h)
    (hyd : y + 1 < h) :
    nbrCell w h (y * w + x) (w : ℤ) = some ((y + 1) * w + x) := by
  have hxy : nbrXY w (y * w + x) (w : ℤ) = ((x : ℤ), (y : ℤ) + 1) := by
    simp only [nbrXY, idx_mod x y hx, idx_div x y hx,
      show ¬((w : ℤ) = -1) from by omega, show ¬((w : ℤ) = 1) from by omega,
      show ¬((w : ℤ) = -(w : ℤ)) from by omega,
      if_false, eq_self_iff_true, if_true]
  simp only [nbrCell, hxy]
  rw [if_neg (by omega)]
  rw [show ((y : ℤ) + 1).toNat = y + 1 from by omega,
    show ((x : ℤ)).toNat = x from by omega]

theorem grid_connected (w h : ℕ) (hw : 2 ≤ w) (S : ℕ → Prop)
    (hcl : ∀ i < w * h, S i → ∀ o ∈ offs w, ∀ j, nbrCell w h i o = some j → S j)
    {i0 : ℕ} (hi0 : i0 < w * h) (hS0 : S i0) : ∀ i < w * h, S i := by
  have hstepL : ∀ x y, x < w → y < h → S (y * w + x) → 1 ≤ x → S (y * w + (x - 1)) := by
    intro x y hx hy hs hx1
    exact hcl _ (idx_lt hx hy) hs (-1) (by simp [offs]) _ (nbrCell_left hx hy hx1)
  have hstepR : ∀ x y, x < w → y < h → S (y * w + x) → x + 1 < w → S (y * w + (x + 1)) := by
    intro x y hx hy hs hxr
    exact hcl _ (idx_lt hx hy) hs 1 (by simp [offs]) _ (nbrCell_right hx hy hxr)
  have hstepU : ∀ x y, x < w → y < h → S (y * w + x) → 1 ≤ y → S ((y - 1) * w + x) := by
    intro x y hx hy hs hy1
    exact hcl _ (idx_lt hx hy) hs (-(w : ℤ)) (by simp [offs]) _ (nbrCell_up hw hx hy hy1)
  have hstepD : ∀ x y, x < w → y < h → S (y * w + x) → y + 1 < h → S ((y + 1) * w + x) := by
    intro x y hx hy hs hyd
    exact hcl _ (idx_lt hx hy) hs (w : ℤ) (by simp [offs]) _ (nbrCell_down hw hx hy hyd)
  have hx0 : i0 % w < w := Nat.mod_lt _ (by omega)
  have hy0 : i0 / w < h := by
    rw [Nat.div_lt_iff_lt_mul (by omega : 0 < w), Nat.mul_comm]
    exact hi0
  have hi0eq : (i0 / w) * w + i0 % w = i0 := by
    rw [Nat.mul_comm]
    exact Nat.div_add_mod i0 w
  have hS00 : S ((i0 / w) * w + i0 % w) := by
    rw [hi0eq]
    exact hS0
  have hcolD : ∀ d, i0 / w + d < h → S ((i0 / w + d) * w + i0 % w) := by
    intro d
    induction d with
    | zero =>
        intro _
        simpa using hS00
    | succ k ihk =>
        intro hlt
        exact hstepD (i0 % w) (i0 / w + k) hx0 (by omega) (ihk (by omega)) (by omega)
  have hcolU : ∀ d, d ≤ i0 / w → S ((i0 / w - d) * w + i0 % w) := by
    intro d
    induction d with
    | zero =>
        intro _
        simpa using hS00
    | succ k ihk =>
        intro hle
        have hk := ihk (by omega)
        have h2 := hstepU (i0 % w) (i0 / w - k) hx0 (by omega) hk (by omega)
        rwa [show i0 / w - k - 1 = i0 / w - (k + 1) from by omega] at h2
  have hcol : ∀ y, y < h → S (y * w + i0 % w) := by
    intro y hy
    rcases le_or_lt (i0 / w) y with hle | hlt
    · have := hcolD (y - i0 / w) (by omega)
      rwa [show i0 / w + (y - i0 / w) = y from by omega] at this
    · have := hcolU (i0 / w - y) (by omega)
      rwa [show i0 / w - (i0 / w - y) = y from by omega] at this
  have hrowR : ∀ y, y < h → ∀ d, i0 % w + d < w → S (y * w + (i0 % w + d)) := by
    intro y hy d
    induction d with
    | zero =>
        intro _
        simpa using hcol y hy
    | succ k ihk =>
        intro hlt
        exact hstepR (i0 % w + k) y (by omega) hy (ihk (by omega)) (by omega)
  have hrowL : ∀ y, y < h → ∀ d, d ≤ i0 % w → S (y * w + (i0 % w - d)) := by
    intro y hy d
    induction d with
    | zero =>
        intro _
        simpa using hcol y hy
    | succ k ihk =>
        intro hle
        have hk := ihk (by omega)
        have h2 := hstepL (i0 % w - k) y (by omega) hy hk (by omega)
        rwa [show i0 % w - k - 1 = i0 % w - (k + 1) from by omega] at h2
  intro i hi
  have hxi : i % w < w := Nat.mod_lt _ (by omega)
  have hyi : i / w < h := by
    rw [Nat.div_lt_iff_lt_mul (by omega : 0 < w), Nat.mul_comm]
    exact hi
  have hieq : (i / w) * w + i % w = i := by
    rw [Nat.mul_comm]
    exact Nat.div_add_mod i w
  rw [← hieq]
  rcases le_or_lt (i0 % w) (i % w) with hle | hlt
  · have := hrowR (i / w) hyi (i % w - i0 % w) (by omega)
    rwa [show i0 % w + (i % w - i0 % w) = i % w from by omega] at this
  · have := hrowL (i / w) hyi (i0 % w - i % w) (by omega)
    rwa [show i0 % w - (i0 % w - i % w) = i % w from by omega] at this

theorem zc_le (n : ℕ) (labels : List ℤ) : zc n labels ≤ n := by
  unfold zc
  calc ((countUp n 0).filter (fun i => nthD labels i 0 = 0)).length
      ≤ (countUp n 0).length := List.length_filter_le _ _
    _ = n := countUp_length n 0

theorem seed_aux_len (w : ℕ) :
    ∀ (seeds : List (ℕ × ℕ × ℤ)) (st : List ℤ × PQ),
      ((seeds.foldl
        (fun st sd =>
          let idx := sd.2.1 * w + sd.1
          if idx < st.1.length then (setNth st.1 idx sd.2.2, pqEnqueue st.2 idx 0)
          else st) st).2).length ≤ st.2.length + seeds.length := by
  intro seeds
  induction seeds with
  | nil =>
      intro st
      simp
  | cons sd rest ih =>
      intro st
      rw [List.foldl_cons]
      refine le_trans (ih _) ?_
      dsimp only
      split
      · simp only [pqEnqueue, List.length_append, List.length_cons, List.length_nil]
        omega
      · simp only [List.length_cons]
        omega

theorem seed_aux_inv (w h : ℕ) :
    ∀ (seeds : List (ℕ × ℕ × ℤ)) (st : List ℤ × PQ),
      (∀ s ∈ seeds, 0 < s.2.2) →
      st.1.length = w * h → POk st.1 → QOk w h st.1 st.2 →
      (∀ i < w * h, nthD st.1 i 0 ≠ 0 → ∃ q, (i, q) ∈ st.2) →
      (((seeds.foldl
        (fun st sd =>
          let idx := sd.2.1 * w + sd.1
          if idx < st.1.length then (setNth st.1 idx sd.2.2, pqEnqueue st.2 idx 0)
          else st) st)).1.length = w * h ∧
        POk ((seeds.foldl
          (fun st sd =>
            let idx := sd.2.1 * w + sd.1
            if idx < st.1.length then (setNth st.1 idx sd.2.2, pqEnqueue st.2 idx 0)
            else st) st)).1 ∧
        QOk w h ((seeds.foldl
          (fun st sd =>
            let idx := sd.2.1 * w + sd.1
            if idx < st.1.length then (setNth st.1 idx sd.2.2, pqEnqueue st.2 idx 0)
            else st) st)).1
          ((seeds.foldl
            (fun st sd =>
              let idx := sd.2.1 * w + sd.1
              if idx < st.1.length then (setNth st.1 idx sd.2.2, pqEnqueue st.2 idx 0)
              else st) st)).2 ∧
        (∀ i < w * h, nthD ((seeds.foldl
          (fun st sd =>
            let idx := sd.2.1 * w + sd.1
            if idx < st.1.length then (setNth st.1 idx sd.2.2, pqEnqueue st.2 idx 0)
            else st) st)).1 i 0 ≠ 0 →
          ∃ q, (i, q) ∈ ((seeds.foldl
            (fun st sd =>
              let idx := sd.2.1 * w + sd.1
              if idx < st.1.length then (setNth st.1 idx sd.2.2, pqEnqueue st.2 idx 0)
              else st) st)).2) ∧
        (∀ i, nthD st.1 i 0 ≠ 0 → nthD ((seeds.foldl
          (fun st sd =>
            let idx := sd.2.1 * w + sd.1
            if idx < st.1.length then (setNth st.1 idx sd.2.2, pqEnqueue st.2 idx 0)
            else st) st)).1 i 0 ≠ 0)) := by
  intro seeds
  induction seeds with
  | nil =>
      intro st _ h1 h2 h3 h4
      exact ⟨h1, h2, h3, h4, fun i hi => hi⟩
  | cons sd rest ih =>
      intro st hpos hlen hP hQ hCQ
      rw [List.foldl_cons]
      have hsd : 0 < sd.2.2 := hpos sd (by simp)
      have hrest : ∀ s ∈ rest, 0 < s.2.2 := fun s hs => hpos s (by simp [hs])
      by_cases hin : sd.2.1 * w + sd.1 < st.1.length
      · simp only []
        rw [if_pos hin]
        have hlen2 : (setNth st.1 (sd.2.1 * w + sd.1) sd.2.2).length = w * h := by
          rw [length_setNth, hlen]
        have hval : nthD (setNth st.1 (sd.2.1 * w + sd.1) sd.2.2)
            (sd.2.1 * w + sd.1) 0 = sd.2.2 := nthD_setNth_self _ _ _ _ hin
        have hP2 : POk (setNth st.1 (sd.2.1 * w + sd.1) sd.2.2) := by
          intro i
          by_cases hie : i = sd.2.1 * w + sd.1
          · subst hie
            rw [hval]
            exact Or.inr hsd
          · rw [nthD_setNth_ne _ _ _ _ _ (fun hx => hie hx.symm)]
            exact hP i
        have hQ2 : QOk w h (setNth st.1 (sd.2.1 * w + sd.1) sd.2.2)
            (pqEnqueue st.2 (sd.2.1 * w + sd.1) 0) := by
          intro e he
          rcases List.mem_append.mp he with hold | hnew
          · obtain ⟨he1, he2⟩ := hQ e hold
            refine ⟨he1, ?_⟩
            by_cases hie : e.1 = sd.2.1 * w + sd.1
            · rw [hie, hval]
              omega
            · rw [nthD_setNth_ne _ _ _ _ _ (fun hx => hie hx.symm)]
              exact he2
          · simp only [List.mem_singleton] at hnew
            subst hnew
            refine ⟨by omega, ?_⟩
            rw [hval]
            omega
        have hCQ2 : ∀ i < w * h, nthD (setNth st.1 (sd.2.1 * w + sd.1) sd.2.2) i 0 ≠ 0 →
            ∃ q, (i, q) ∈ pqEnqueue st.2 (sd.2.1 * w + sd.1) 0 := by
          intro i hi hnz
          by_cases hie : i = sd.2.1 * w + sd.1
          · subst hie
            exact ⟨0, List.mem_append_right _ (by simp)⟩
          · rw [nthD_setNth_ne _ _ _ _ _ (fun hx => hie hx.symm)] at hnz
            obtain ⟨q, hq⟩ := hCQ i hi hnz
            exact ⟨q, List.mem_append_left _ hq⟩
        obtain ⟨a1, a2, a3, a4, a5⟩ := ih
          (setNth st.1 (sd.2.1 * w + sd.1) sd.2.2,
            pqEnqueue st.2 (sd.2.1 * w + sd.1) 0) hrest hlen2 hP2 hQ2 hCQ2
        refine ⟨a1, a2, a3, a4, ?_⟩
        intro i hi
        refine a5 i ?_
        by_cases hie : i = sd.2.1 * w + sd.1
        · subst hie
          rw [hval]
          omega
        · rw [nthD_setNth_ne _ _ _ _ _ (fun hx => hie hx.symm)]
          exact hi
      · simp only []
        rw [if_neg hin]
        exact ih _ hrest hlen hP hQ hCQ

theorem seed_aux_seeded (w h : ℕ) :
    ∀ (seeds : List (ℕ × ℕ × ℤ)) (st : List ℤ × PQ),
      (∀ s ∈ seeds, 0 < s.2.2) →
      st.1.length = w * h → POk st.1 → QOk w h st.1 st.2 →
      (∀ i < w * h, nthD st.1 i 0 ≠ 0 → ∃ q, (i, q) ∈ st.2) →
      ∀ s ∈ seeds, s.2.1 * w + s.1 < w * h →
      nthD ((seeds.foldl
        (fun st sd =>
          let idx := sd.2.1 * w + sd.1
          if idx < st.1.length then (setNth st.1 idx sd.2.2, pqEnqueue st.2 idx 0)
          else st) st)).1 (s.2.1 * w + s.1) 0 ≠ 0 := by
  intro seeds
  induction seeds with
  | nil =>
      intro st _ _ _ _ _ s hs
      simp at hs
  | cons sd rest ih =>
      intro st hpos hlen hP hQ hCQ s hs hsin
      have hsd : 0 < sd.2.2 := hpos sd (by simp)
      have hrest : ∀ s2 ∈ rest, 0 < s2.2.2 := fun s2 hs2 => hpos s2 (by simp [hs2])
      rcases List.mem_cons.mp hs with rfl | hs2
      · have hin : s.2.1 * w + s.1 < st.1.length := by omega
        rw [List.foldl_cons]
        simp only []
        rw [if_pos hin]
        have hlen2 : (setNth st.1 (s.2.1 * w + s.1) s.2.2).length = w * h := by
          rw [length_setNth, hlen]
        have hval : nthD (setNth st.1 (s.2.1 * w + s.1) s.2.2) (s.2.1 * w + s.1) 0 =
            s.2.2 := nthD_setNth_self _ _ _ _ hin
        have hP2 : POk (setNth st.1 (s.2.1 * w + s.1) s.2.2) := by
          intro i
          by_cases hie : i = s.2.1 * w + s.1
          · subst hie
            rw [hval]
            exact Or.inr hsd
          · rw [nthD_setNth_ne _ _ _ _ _ (fun hx => hie hx.symm)]
            exact hP i
        have hQ2 : QOk w h (setNth st.1 (s.2.1 * w + s.1) s.2.2)
            (pqEnqueue st.2 (s.2.1 * w + s.1) 0) := by
          intro e he
          rcases List.mem_append.mp he with hold | hnew
          · obtain ⟨he1, he2⟩ := hQ e hold
            refine ⟨he1, ?_⟩
            by_cases hie : e.1 = s.2.1 * w + s.1
            · rw [hie, hval]
              omega
            · rw [nthD_setNth_ne _ _ _ _ _ (fun hx => hie hx.symm)]
              exact he2
          · simp only [List.mem_singleton] at hnew
            subst hnew
            refine ⟨by omega, ?_⟩
            rw [hval]
            omega
        have hCQ2 : ∀ i < w * h, nthD (setNth st.1 (s.2.1 * w + s.1) s.2.2) i 0 ≠ 0 →
            ∃ q, (i, q) ∈ pqEnqueue st.2 (s.2.1 * w + s.1) 0 := by
          intro i hi hnz
          by_cases hie : i = s.2.1 * w + s.1
          · subst hie
            exact ⟨0, List.mem_append_right _ (by simp)⟩
          · rw [nthD_setNth_ne _ _ _ _ _ (fun hx => hie hx.symm)] at hnz
            obtain ⟨q, hq⟩ := hCQ i hi hnz
            exact ⟨q, List.mem_append_left _ hq⟩
        obtain ⟨_, _, _, _, a5⟩ := seed_aux_inv w h rest
          (setNth st.1 (s.2.1 * w + s.1) s.2.2,
            pqEnqueue st.2 (s.2.1 * w + s.1) 0) hrest hlen2 hP2 hQ2 hCQ2
        refine a5 _ ?_
        rw [hval]
        omega
      · rw [List.foldl_cons]
        by_cases hin : sd.2.1 * w + sd.1 < st.1.length
        · simp only []
          rw [if_pos hin]
          have hlen2 : (setNth st.1 (sd.2.1 * w + sd.1) sd.2.2).length = w * h := by
            rw [length_setNth, hlen]
          have hval : nthD (setNth st.1 (sd.2.1 * w + sd.1) sd.2.2)
              (sd.2.1 * w + sd.1) 0 = sd.2.2 := nthD_setNth_self _ _ _ _ hin
          have hP2 : POk (setNth st.1 (sd.2.1 * w + sd.1) sd.2.2) := by
            intro i
            by_cases hie : i = sd.2.1 * w + sd.1
            · subst hie
              rw [hval]
              exact Or.inr hsd
            · rw [nthD_setNth_ne _ _ _ _ _ (fun hx => hie hx.symm)]
              exact hP i
          have hQ2 : QOk w h (setNth st.1 (sd.2.1 * w + sd.1) sd.2.2)
              (pqEnqueue st.2 (sd.2.1 * w + sd.1) 0) := by
            intro e he
            rcases List.mem_append.mp he with hold | hnew
            · obtain ⟨he1, he2⟩ := hQ e hold
              refine ⟨he1, ?_⟩
              by_cases hie : e.1 = sd.2.1 * w + sd.1
              · rw [hie, hval]
                omega
              · rw [nthD_setNth_ne _ _ _ _ _ (fun hx => hie hx.symm)]
                exact he2
            · simp only [List.mem_singleton] at hnew
              subst hnew
              refine ⟨by omega, ?_⟩
              rw [hval]
              omega
          have hCQ2 : ∀ i < w * h, nthD (setNth st.1 (sd.2.1 * w + sd.1) sd.2.2) i 0 ≠ 0 →
              ∃ q, (i, q) ∈ pqEnqueue st.2 (sd.2.1 * w + sd.1) 0 := by
            intro i hi hnz
            by_cases hie : i = sd.2.1 * w + sd.1
            · subst hie
              exact ⟨0, List.mem_append_right _ (by simp)⟩
            · rw [nthD_setNth_ne _ _ _ _ _ (fun hx => hie hx.symm)] at hnz
              obtain ⟨q, hq⟩ := hCQ i hi hnz
              exact ⟨q, List.mem_append_left _ hq⟩
          exact ih
            (setNth st.1 (sd.2.1 * w + sd.1) sd.2.2,
              pqEnqueue st.2 (sd.2.1 * w + sd.1) 0) hrest hlen2 hP2 hQ2 hCQ2 s hs2 hsin
        · simp only []
          rw [if_neg hin]
          exact ih _ hrest hlen hP hQ hCQ s hs2 hsin

theorem segment_all_pos (gm : List ℚ) (w h : ℕ) (seeds : List (ℕ × ℕ × ℤ))
    (hw : 2 ≤ w) (hpos : ∀ s ∈ seeds, 0 < s.2.2)
    (hseed : ∃ s ∈ seeds, s.1 < w ∧ s.2.1 < h) :
    ∀ i < w * h, 0 < nthD (segment gm w h seeds) i 0 := by
  obtain ⟨s0, hs0, hx0, hy0⟩ := hseed
  have hrep : (List.replicate (w * h) (0 : ℤ)).length = w * h := by simp
  have hP0 : POk (List.replicate (w * h) (0 : ℤ)) := fun i => Or.inl (nthD_replicate _ _ _)
  have hQ0 : QOk w h (List.replicate (w * h) 0) ([] : PQ) := fun e he => absurd he (by simp)
  have hCQ0 : ∀ i < w * h, nthD (List.replicate (w * h) (0 : ℤ)) i 0 ≠ 0 →
      ∃ q, (i, q) ∈ ([] : PQ) := by
    intro i _ hnz
    exact absurd (nthD_replicate _ _ _) hnz
  obtain ⟨L1, P1, Q1, CQ1, pres1⟩ :=
    seed_aux_inv w h seeds (List.replicate (w * h) 0, ([] : PQ)) hpos hrep hP0 hQ0 hCQ0
  have hC1 : COk w h (seedInit w seeds (List.replicate (w * h) 0)).1
      (seedInit w seeds (List.replicate (w * h) 0)).2 :=
    fun i hi hnz => Or.inl (CQ1 i hi hnz)
  have hqlen : (seedInit w seeds (List.replicate (w * h) 0)).2.length ≤
      ([] : PQ).length + seeds.length :=
    seed_aux_len w seeds (List.replicate (w * h) 0, ([] : PQ))
  have hzc := zc_le (w * h) (seedInit w seeds (List.replicate (w * h) 0)).1
  have hmeas : 2 * zc (w * h) (seedInit w seeds (List.replicate (w * h) 0)).1 +
      (seedInit w seeds (List.replicate (w * h) 0)).2.length <
      2 * (w * h) + seeds.length + 1 := by
    simp only [List.length_nil] at hqlen
    omega
  obtain ⟨keepF, PF, CF⟩ :=
    flood_main gm w h (2 * (w * h) + seeds.length + 1)
      (seedInit w seeds (List.replicate (w * h) 0)).1
      (seedInit w seeds (List.replicate (w * h) 0)).2 L1 P1 Q1 hC1 hmeas
  have hseeded := seed_aux_seeded w h seeds (List.replicate (w * h) 0, ([] : PQ))
    hpos hrep hP0 hQ0 hCQ0 s0 hs0 (idx_lt hx0 hy0)
  have hS0 := keepF _ hseeded
  have hall := grid_connected w h hw
    (fun i => nthD (floodFuel gm w h (2 * (w * h) + seeds.length + 1)
      (seedInit w seeds (List.replicate (w * h) 0)).1
      (seedInit w seeds (List.replicate (w * h) 0)).2) i 0 ≠ 0)
    CF (idx_lt hx0 hy0) hS0
  intro i hi
  have hnz := hall i hi
  rcases PF i with hz | hp
  · exact absurd hz hnz
  · exact hp

/-- C10 (amended): whenever the barrier-augmented watershed pipeline runs
on a grid at least two cells wide, with every seed label positive and at
least one seed inside the grid, every cell of the returned label grid
carries a positive label: the finite barrier penalty never makes a cell
unreachable, each cell is claimed at most once, and the flood drains the
queue within its fuel. -/
theorem C10_theorem (hm : List ℚ) (w h : ℕ) (mask : List (List Bool)) (penalty : ℚ)
    (seeds : List (ℕ × ℕ × ℤ)) (hw : 2 ≤ w)
    (hpos : ∀ s ∈ seeds, 0 < s.2.2)
    (hseed : ∃ s ∈ seeds, s.1 < w ∧ s.2.1 < h) :
    ∀ i < w * h, 0 < nthD (segmentWithBarriers hm w h mask penalty seeds) i 0 := by
  intro i hi
  exact segment_all_pos (applyBarriers (computeGradient hm w h) w h mask penalty)
    w h seeds hw hpos hseed i hi

/-- C10 witness: on a concrete 2x2 heightmap with one corner seed, every
cell ends positive. -/
theorem C10_witness :
    (∀ s ∈ seedsA, 0 < s.2.2) ∧ (∃ s ∈ seedsA, s.1 < 2 ∧ s.2.1 < 2) ∧
      0 < nthD (segmentWithBarriers hmA 2 2 [] 1000 seedsA) 3 0 := by
  have hpos : ∀ s ∈ seedsA, 0 < s.2.2 := by
    intro s hs
    simp only [seedsA, List.mem_singleton] at hs
    subst hs
    norm_num
  have hseed : ∃ s ∈ seedsA, s.1 < 2 ∧ s.2.1 < 2 :=
    ⟨(0, 0, 1), by simp [seedsA], by norm_num, by norm_num⟩
  exact ⟨hpos, hseed,
    C10_theorem hmA 2 2 [] 1000 seedsA (by norm_num) hpos hseed 3 (by norm_num)⟩

/-- C10 counterexample: on a one-cell-wide grid the else-if offset chain
of the source treats the up and down offsets (±width = ±1) as left and
right, so the flood never leaves the seed cell and the second cell of a
1x2 grid keeps label 0. -/
theorem C10_counterexample :
    segment [0, 0] 1 2 [(0, 0, 1)] = [1, 0] ∧
      nthD (segment [0, 0] 1 2 [(0, 0, 1)]) 1 0 = 0 := by
  constructor <;> decide

end Wshed
